import Mathlib

/-!
# socki: the websocket hub and its connection pumps

A shallow embedding of `ws/hub.go`, `ws/client.go` and `ws/server.go`.

* A message (`[]byte`) is a list of byte values.
* A client (`*Client`) is named by a number; its `send` channel lives in a
  heap `ClientId → Chan`.
* The registry `map[*Client]bool` only ever stores `true`, so it is kept as the
  list of its keys.  Every operation on it (`insert`, `filter`, membership,
  iteration over `rangeOrder`) treats the list as a set.
* Go panics (`send on closed channel`, `close of closed channel`) are the
  errors of `Except Fault`.
-/

namespace Socki

/-- A byte slice. -/
abbrev Msg := List Nat

/-- The identity of a `*Client`. -/
abbrev ClientId := Nat

/-- The constant `maxMessageSize` of `client.go`. -/
def maxMessageSize : Nat := 512

/-- A buffered Go channel of messages: the buffered values (oldest first), the
capacity given to `make`, and whether `close` was called.  The field `closes`
counts the executed `close` calls; no operation reads it. -/
structure Chan where
  buf : List Msg
  cap : Nat
  closed : Bool
  closes : Nat
deriving DecidableEq, Repr

/-- The two run-time panics a channel operation of the hub loop can raise. -/
inductive Fault where
  | sendOnClosed
  | closeOfClosed
deriving DecidableEq, Repr

/-- The channel made by `make(chan []byte, n)`. -/
def Chan.make (n : Nat) : Chan := ⟨[], n, false, 0⟩

/-- The builtin `close(ch)`: panics on a channel that is already closed. -/
def Chan.close (ch : Chan) : Except Fault Chan :=
  if ch.closed then .error .closeOfClosed
  else .ok { ch with closed := true, closes := ch.closes + 1 }

/-- The state the hub loop works on: the key set of `hub.clients` and the
`send` channel of every client. -/
structure Hub where
  clients : List ClientId
  send : ClientId → Chan

/-- What the hub loop receives on one of its three channels.  A broadcast
carries, besides the message, the order in which the Go runtime will happen to
iterate the registry (see `rangeOrder`). -/
inductive Event where
  | register (c : ClientId)
  | unregister (c : ClientId)
  | broadcast (m : Msg) (hint : List ClientId)
deriving DecidableEq, Repr

/-- The `send` channel of the client made by `NewClient`:
`make(chan []byte, maxMessageSize)`. -/
def NewClient : Chan := Chan.make maxMessageSize

/-- The hub made by `NewHub`, over a given heap of client channels. -/
def NewHub (send : ClientId → Chan) : Hub := ⟨[], send⟩

/-- Assignment to `client.send`'s channel state. -/
def Hub.setSend (h : Hub) (c : ClientId) (ch : Chan) : Hub :=
  { h with send := Function.update h.send c ch }

/-- The builtin `delete(hub.clients, client)`. -/
def Hub.delete (h : Hub) (c : ClientId) : Hub :=
  { h with clients := h.clients.filter (fun d => d ≠ c) }

/-- The order in which `for client := range hub.clients` produces the keys.
Go leaves it unspecified, so it is taken from `hint`: the members named by the
hint come first, in the hint's order, then the members it does not name.  The
result always lists every member exactly once (`rangeOrder_nodup`,
`mem_rangeOrder`) and every duplicate-free listing of the members is obtained
from some hint (`rangeOrder_self`). -/
def rangeOrder (hint clients : List ClientId) : List ClientId :=
  (hint.dedup.filter (fun d => d ∈ clients)) ++ (clients.dedup.filter (fun d => d ∉ hint))

/-- The body of the broadcast loop for one client:
`select { case client.send <- message: default: close(client.send); delete(hub.clients, client) }`.
A send on a closed channel panics; a send on an open channel with a free
buffer slot proceeds; otherwise the `default` branch runs. -/
def visit (m : Msg) (h : Hub) (c : ClientId) : Except Fault Hub :=
  if (h.send c).closed then .error .sendOnClosed
  else if (h.send c).buf.length < (h.send c).cap then
    .ok (h.setSend c { h.send c with buf := (h.send c).buf ++ [m] })
  else
    match (h.send c).close with
    | .ok ch => .ok ((h.setSend c ch).delete c)
    | .error f => .error f

/-- The loop `for client := range hub.clients { ... }` over a given iteration
order. -/
def broadcastLoop (m : Msg) : List ClientId → Hub → Except Fault Hub
  | [], h => .ok h
  | c :: rest, h =>
    match visit m h c with
    | .ok h1 => broadcastLoop m rest h1
    | .error f => .error f

/-- One turn of the `select` of `Hub.Run`. -/
def step (h : Hub) : Event → Except Fault Hub
  | .register c => .ok { h with clients := h.clients.insert c }
  | .unregister c =>
    if c ∈ h.clients then
      match ((h.delete c).send c).close with
      | .ok ch => .ok ((h.delete c).setSend c ch)
      | .error f => .error f
    else .ok h
  | .broadcast m hint => broadcastLoop m (rangeOrder hint h.clients) h

/-- `Hub.Run`: the loop over the events it receives, in order. -/
def Run (h : Hub) : List Event → Except Fault Hub
  | [] => .ok h
  | e :: es =>
    match step h e with
    | .ok h1 => Run h1 es
    | .error f => .error f

/-- What one broadcast does to the channel of a member whose channel is open:
the message is appended when a buffer slot is free, the channel is closed
otherwise. -/
def deliver (m : Msg) (ch : Chan) : Chan :=
  if ch.buf.length < ch.cap then { ch with buf := ch.buf ++ [m] }
  else { ch with closed := true, closes := ch.closes + 1 }

/-- The broadcast events for a list of messages, each with the iteration order
the runtime picks for it. -/
def broadcasts (ms : List (Msg × List ClientId)) : List Event :=
  ms.map (fun p => Event.broadcast p.1 p.2)

/-- A registry with two members: client 0 with an open, empty queue of
capacity 2 and client 1 whose queue is closed. -/
def closedMemberHub : Hub :=
  ⟨[0, 1], fun c => if c = 1 then ⟨[], 2, true, 1⟩ else Chan.make 2⟩

/-- A registry with two members: client 0 with an open queue that is full and
client 1 whose queue is closed. -/
def fullAndClosedHub : Hub :=
  ⟨[0, 1], fun c => if c = 1 then ⟨[], 1, true, 1⟩ else ⟨[[7]], 1, false, 0⟩⟩

/-- Whether an event is a register or unregister of client `c`. -/
def Event.names (c : ClientId) : Event → Bool
  | .register d => d = c
  | .unregister d => d = c
  | .broadcast _ _ => false

/-- Whether an event is a register or an unregister. -/
def Event.isMembership : Event → Bool
  | .broadcast _ _ => false
  | _ => true

/-- The last event of the sequence that names client `c`, if any. -/
def lastNaming (c : ClientId) (evs : List Event) : Option Event :=
  (evs.filter (fun e => e.names c)).getLast?

/-- No client is submitted to register after it was submitted to unregister. -/
def neverReRegisters : List Event → Bool
  | [] => true
  | .unregister c :: es => !(es.contains (.register c)) && neverReRegisters es
  | _ :: es => neverReRegisters es

/-- Every register event of the sequence names a client whose queue is open
at the moment the hub loop, started in state `h`, processes the event.  Events
behind a panic are not processed and so are not constrained. -/
def registersOpen (h : Hub) : List Event → Bool
  | [] => true
  | e :: es =>
    (match e with
      | .register c => !(h.send c).closed
      | _ => true) &&
    (match step h e with
      | .ok h1 => registersOpen h1 es
      | .error _ => true)

/-- The state of the hub after the events `past`, when no client was
registered while its queue was closed and every queue was open at the start
(`send0`): a
member has an open queue that was never closed, a client registered in the
past that is no longer a member has a queue that was closed exactly once, and
a client never registered has an untouched queue. -/
def Good (send0 : ClientId → Chan) (past : List Event) (h : Hub) : Prop :=
  ∀ c,
    (c ∈ h.clients → (h.send c).closed = false ∧ (h.send c).closes = (send0 c).closes ∧
      Event.register c ∈ past) ∧
    (c ∉ h.clients → Event.register c ∈ past →
      (h.send c).closed = true ∧ (h.send c).closes = (send0 c).closes + 1) ∧
    (Event.register c ∉ past →
      (h.send c).closed = false ∧ (h.send c).closes = (send0 c).closes)

/-! ## The Go library functions used by `ReadPump`

`unicode/utf8`, `unicode` and `bytes`, transcribed from the Go standard
library.  A rune is its code point. -/

namespace utf8

/-- `utf8.RuneError`: the rune returned for an invalid encoding. -/
def RuneError : Nat := 0xFFFD

/-- `utf8.RuneSelf`: bytes below it are single-byte runes. -/
def RuneSelf : Nat := 0x80

/-- `utf8.UTFMax`: the longest encoding, in bytes. -/
def UTFMax : Nat := 4

/-- The table `first`: information about the first byte of an encoding.
`0xF0` marks an ASCII byte, `0xF1` an invalid one; otherwise the low three bits
give the size and the high four bits index `acceptRanges`. -/
def first (b : Nat) : Nat :=
  if b < 0x80 then 0xF0
  else if b < 0xC2 then 0xF1
  else if b < 0xE0 then 0x02
  else if b = 0xE0 then 0x13
  else if b < 0xED then 0x03
  else if b = 0xED then 0x23
  else if b < 0xF0 then 0x03
  else if b = 0xF0 then 0x34
  else if b < 0xF4 then 0x04
  else if b = 0xF4 then 0x44
  else 0xF1

/-- The table `acceptRanges`: the range allowed for the second byte. -/
def acceptRanges (i : Nat) : Nat × Nat :=
  match i with
  | 0 => (0x80, 0xBF)
  | 1 => (0xA0, 0xBF)
  | 2 => (0x80, 0x9F)
  | 3 => (0x90, 0xBF)
  | 4 => (0x80, 0x8F)
  | _ => (0, 0)

/-- The rune of a two-byte encoding. -/
def rune2 (p0 b1 : Nat) : Nat := (p0 &&& 0x1F) <<< 6 ||| (b1 &&& 0x3F)

/-- The rune of a three-byte encoding. -/
def rune3 (p0 b1 b2 : Nat) : Nat :=
  (p0 &&& 0x0F) <<< 12 ||| (b1 &&& 0x3F) <<< 6 ||| (b2 &&& 0x3F)

/-- The rune of a four-byte encoding. -/
def rune4 (p0 b1 b2 b3 : Nat) : Nat :=
  (p0 &&& 0x07) <<< 18 ||| (b1 &&& 0x3F) <<< 12 ||| (b2 &&& 0x3F) <<< 6 ||| (b3 &&& 0x3F)

/-- `utf8.DecodeRune`: the first rune of `p` and its width in bytes. -/
def DecodeRune (p : Msg) : Nat × Nat :=
  match p with
  | [] => (RuneError, 0)
  | p0 :: _ =>
    let x := first p0
    if 0xF0 ≤ x then (if x = 0xF0 then p0 else RuneError, 1)
    else
      let sz := x % 8
      let accept := acceptRanges (x / 16)
      if p.length < sz then (RuneError, 1)
      else
        let b1 := p.getD 1 0
        if b1 < accept.1 ∨ accept.2 < b1 then (RuneError, 1)
        else if sz ≤ 2 then (rune2 p0 b1, 2)
        else
          let b2 := p.getD 2 0
          if b2 < 0x80 ∨ 0xBF < b2 then (RuneError, 1)
          else if sz ≤ 3 then (rune3 p0 b1 b2, 3)
          else
            let b3 := p.getD 3 0
            if b3 < 0x80 ∨ 0xBF < b3 then (RuneError, 1)
            else (rune4 p0 b1 b2 b3, 4)

/-- `utf8.RuneStart`: the byte is not a continuation byte. -/
def RuneStart (b : Nat) : Bool := b &&& 0xC0 != 0x80

/-- The loop of `DecodeLastRune` that walks `start` back from `end - 2` down
to `lim` until it stands on a byte that starts a rune; `k` counts the positions
left to try, and the result is `lim - 1` (here: `none`) when none does. -/
def scanStart (p : Msg) (lim : Nat) : Nat → Nat → Option Nat
  | 0, _ => none
  | k + 1, start =>
    if start < lim then none
    else if RuneStart (p.getD start 0) then some start
    else if start = 0 then none
    else scanStart p lim k (start - 1)

/-- `utf8.DecodeLastRune`: the last rune of `p` and its width in bytes. -/
def DecodeLastRune (p : Msg) : Nat × Nat :=
  let n := p.length
  if n = 0 then (RuneError, 0)
  else
    let r := p.getD (n - 1) 0
    if r < RuneSelf then (r, 1)
    else
      let lim := n - UTFMax
      let start :=
        if n = 1 then 0
        else
          match scanStart p lim UTFMax (n - 2) with
          | some s => s
          | none => if lim = 0 then 0 else lim - 1
      let d := DecodeRune (p.drop start)
      if start + d.2 ≠ n then (RuneError, 1) else d

end utf8

namespace unicode

/-- `unicode.IsSpace`: the Latin-1 cases and the rest of `White_Space`. -/
def IsSpace (r : Nat) : Bool :=
  if r ≤ 0xFF then
    r = 0x09 ∨ r = 0x0A ∨ r = 0x0B ∨ r = 0x0C ∨ r = 0x0D ∨ r = 0x20 ∨ r = 0x85 ∨ r = 0xA0
  else
    r = 0x1680 ∨ (0x2000 ≤ r ∧ r ≤ 0x200A) ∨ r = 0x2028 ∨ r = 0x2029 ∨ r = 0x202F ∨
      r = 0x205F ∨ r = 0x3000

end unicode


namespace bytes

/-- The table `asciiSpace`. -/
def asciiSpace (c : Nat) : Bool :=
  c = 0x09 ∨ c = 0x0A ∨ c = 0x0B ∨ c = 0x0C ∨ c = 0x0D ∨ c = 0x20

/-- The loop of `bytes.indexFunc` from the current position on, `s` being the
rest of the slice from there; the result is relative to that position, `none`
for `-1`.  The loop advances by at least one byte per turn, so `fuel` turns
suffice for a rest of `fuel` bytes. -/
def indexFuncLoop (f : Nat → Bool) (truth : Bool) : Nat → Msg → Option Nat
  | 0, _ => none
  | _ + 1, [] => none
  | fuel + 1, c :: t =>
    let d := if utf8.RuneSelf ≤ c then utf8.DecodeRune (c :: t) else (c, 1)
    if f d.1 = truth then some 0
    else (indexFuncLoop f truth fuel ((c :: t).drop d.2)).map (fun i => i + d.2)

/-- `bytes.indexFunc`: the index of the first rune `r` with `f(r) == truth`. -/
def indexFunc (s : Msg) (f : Nat → Bool) (truth : Bool) : Option Nat :=
  indexFuncLoop f truth s.length s

/-- The loop of `bytes.lastIndexFunc`, `p` being `s[0:i]`. -/
def lastIndexFuncLoop (f : Nat → Bool) (truth : Bool) : Nat → Msg → Option Nat
  | 0, _ => none
  | fuel + 1, p =>
    if p.length = 0 then none
    else
      let c := p.getD (p.length - 1) 0
      let d := if utf8.RuneSelf ≤ c then utf8.DecodeLastRune p else (c, 1)
      let i := p.length - d.2
      if f d.1 = truth then some i else lastIndexFuncLoop f truth fuel (p.take i)

/-- `bytes.lastIndexFunc`: the index of the last rune `r` with
`f(r) == truth`. -/
def lastIndexFunc (s : Msg) (f : Nat → Bool) (truth : Bool) : Option Nat :=
  lastIndexFuncLoop f truth s.length s

/-- `bytes.TrimLeftFunc`. -/
def TrimLeftFunc (s : Msg) (f : Nat → Bool) : Msg :=
  match indexFunc s f false with
  | none => []
  | some i => s.drop i

/-- `bytes.TrimRightFunc`. -/
def TrimRightFunc (s : Msg) (f : Nat → Bool) : Msg :=
  match lastIndexFunc s f false with
  | some i =>
    if utf8.RuneSelf ≤ s.getD i 0 then s.take (i + (utf8.DecodeRune (s.drop i)).2)
    else s.take (i + 1)
  | none => s.take 0

/-- `bytes.TrimFunc`. -/
def TrimFunc (s : Msg) (f : Nat → Bool) : Msg :=
  TrimRightFunc (TrimLeftFunc s f) f

/-- The second loop of `bytes.TrimSpace`, on the reversed slice `s[start:stop]`:
it lowers `stop` over ASCII space and hands over to `TrimFunc` at the first
byte that is not ASCII. -/
def trimSpaceStop : Msg → Msg
  | [] => []
  | c :: t =>
    if utf8.RuneSelf ≤ c then TrimFunc (c :: t).reverse unicode.IsSpace
    else if asciiSpace c then trimSpaceStop t
    else (c :: t).reverse

/-- `bytes.TrimSpace`: the first loop raises `start` over ASCII space and
hands over to `TrimFunc` at the first byte that is not ASCII. -/
def TrimSpace : Msg → Msg
  | [] => []
  | c :: t =>
    if utf8.RuneSelf ≤ c then TrimFunc (c :: t) unicode.IsSpace
    else if asciiSpace c then TrimSpace t
    else trimSpaceStop (c :: t).reverse

/-- `bytes.Replace(s, old, new, -1)` for a slice `old` of one byte: every
occurrence of the byte is replaced by `new`. -/
def Replace (s : Msg) (old : Nat) (new : Msg) : Msg :=
  match s with
  | [] => []
  | b :: t => (if b = old then new else [b]) ++ Replace t old new

end bytes

/-! ## The connection pumps (`client.go`) -/

/-- The package variable `newline`. -/
def newline : Msg := [10]

/-- The package variable `space`. -/
def space : Msg := [32]

/-- The message `ReadPump` submits to `hub.broadcast` for a payload it read:
`bytes.TrimSpace(bytes.Replace(message, newline, space, -1))`. -/
def normalize (message : Msg) : Msg :=
  bytes.TrimSpace (bytes.Replace message 10 space)

/-- A frame written to the websocket connection: a `websocket.TextMessage`
with its payload, or the `websocket.CloseMessage`. -/
inductive Frame where
  | text (payload : Msg)
  | close
deriving DecidableEq, Repr

/-- How a run of `WritePump` over a queue that nobody sends to any more ends:
the function returned (and the deferred `connection.Close()` ran), or it waits
for ever in a receive on the open, empty queue. `outOfFuel` is never the result
of `WritePump` (`WritePump_fuel`). -/
inductive Exit where
  | returned
  | blocked
  | outOfFuel
deriving DecidableEq, Repr

/-- The outcome of a receive `<-ch`. -/
inductive Recv where
  | value (m : Msg) (rest : Chan)
  | closed
  | wouldBlock
deriving DecidableEq, Repr

/-- A receive from a channel: the oldest buffered value if there is one, even
after `close`; otherwise the closed signal on a closed channel, and a wait on
an open one. -/
def Chan.recv (ch : Chan) : Recv :=
  match ch.buf with
  | m :: rest => .value m { ch with buf := rest }
  | [] => if ch.closed then .closed else .wouldBlock

/-- The loop `for i := 0; i < n; i++ { writer.Write(newline); writer.Write(<-client.send) }`
with `out` the bytes written to the writer so far; `none` when a receive
waits for ever.  A receive from a closed, empty channel yields the nil
slice. -/
def drain : Nat → Chan → Msg → Option (Msg × Chan)
  | 0, ch, out => some (out, ch)
  | n + 1, ch, out =>
    match ch.recv with
    | .value m rest => drain n rest (out ++ newline ++ m)
    | .closed => drain n ch (out ++ newline)
    | .wouldBlock => none

/-- The loop `for range client.send { ... }` of `WritePump`, every network
write succeeding; `out` is the list of frames written so far.  Each turn
receives at least one message, so `fuel` turns suffice for `fuel - 1` queued
messages. -/
def WritePumpLoop : Nat → Chan → List Frame → List Frame × Exit
  | 0, _, out => (out, .outOfFuel)
  | fuel + 1, ch, out =>
    match ch.recv with
    | .closed => (out, .returned)
    | .wouldBlock => (out, .blocked)
    | .value _ ch1 =>
      match ch1.recv with
      | .closed => (out ++ [.close], .returned)
      | .wouldBlock => (out, .blocked)
      | .value message ch2 =>
        match drain ch2.buf.length ch2 message with
        | none => (out, .blocked)
        | some (payload, ch3) => WritePumpLoop fuel ch3 (out ++ [.text payload])

/-- `Client.WritePump` run on the client's outbound queue as it stands, with
no further send to the queue: the frames written to the connection, in order,
and how the run ends. -/
def WritePump (ch : Chan) : List Frame × Exit :=
  WritePumpLoop (ch.buf.length + 1) ch []

/-- The payloads of the text frames among the frames written. -/
def textPayloads : List Frame → List Msg
  | [] => []
  | .text m :: fs => m :: textPayloads fs
  | .close :: fs => textPayloads fs

/-! ## The upgrade entry point (`server.go`) -/

/-- The hubs and clients of the process: the registry of every hub made so
far (hub `i` at index `i`), the `hub` field of every client made so far
(client `c` at index `c`), and the `send` channel of every client. -/
structure World where
  hubs : List (List ClientId)
  hubOf : List Nat
  send : ClientId → Chan

/-- The process before any connection. -/
def World.start : World := ⟨[], [], fun _ => Chan.make 0⟩

/-- One event processed by the loop `Run` of hub `i`. -/
def World.hubStep (w : World) (i : Nat) (e : Event) : Except Fault World :=
  match step ⟨w.hubs.getD i [], w.send⟩ e with
  | .ok h => .ok { w with hubs := w.hubs.set i h.clients, send := h.send }
  | .error f => .error f

/-- `NewWebSocketServer` for one request, `upgraded` telling whether
`upgrader.Upgrade` succeeded: `hub := NewHub()`, `go hub.Run()`,
`client := NewClient(hub, connection)`, and `client.hub.register <- client`
processed by that hub's loop.  The result carries the new client. -/
def NewWebSocketServer (w : World) (upgraded : Bool) : Except Fault (World × Option ClientId) :=
  if upgraded then
    let hub := w.hubs.length
    let client := w.hubOf.length
    let w1 : World :=
      { hubs := w.hubs ++ [(NewHub w.send).clients],
        hubOf := w.hubOf ++ [hub],
        send := Function.update w.send client NewClient }
    match w1.hubStep (w1.hubOf.getD client 0) (.register client) with
    | .ok w2 => .ok (w2, some client)
    | .error f => .error f
  else .ok (w, none)

/-- One turn of the loop of `ReadPump` of client `c` that read `payload`:
`client.hub.broadcast <- message` with the normalized payload, processed by
the loop of the client's hub (`hint` giving its iteration order). -/
def ReadPumpForward (w : World) (c : ClientId) (payload : Msg) (hint : List ClientId) :
    Except Fault World :=
  w.hubStep (w.hubOf.getD c 0) (.broadcast (normalize payload) hint)

/-- Two requests in a row whose upgrade succeeds, from the start of the
process. -/
def admitTwo : Except Fault World :=
  match NewWebSocketServer World.start true with
  | .ok (w1, _) =>
    match NewWebSocketServer w1 true with
    | .ok (w2, _) => .ok w2
    | .error f => .error f
  | .error f => .error f

/-! ## White space, for the statement about `normalize` -/

/-- The slice begins with a white space character (`unicode.IsSpace` of its
first rune); the empty slice does not. -/
def beginsWithSpace (s : Msg) : Bool := unicode.IsSpace (utf8.DecodeRune s).1

/-- The slice ends with a white space character (`unicode.IsSpace` of its
last rune); the empty slice does not. -/
def endsWithSpace (s : Msg) : Bool := unicode.IsSpace (utf8.DecodeLastRune s).1

/-- The slice consists of white space only: it is a sequence of encodings of
white space characters. -/
inductive SpaceRun : Msg → Prop where
  | nil : SpaceRun []
  | cons (ch rest : Msg) : (utf8.DecodeRune ch).2 = ch.length →
      unicode.IsSpace (utf8.DecodeRune ch).1 = true → SpaceRun rest → SpaceRun (ch ++ rest)


/-! # Theorems -/

/-! ## The iteration order -/

theorem rangeOrder_nodup (hint clients : List ClientId) : (rangeOrder hint clients).Nodup := by
  unfold rangeOrder
  refine List.Nodup.append ((List.nodup_dedup hint).filter _) ((List.nodup_dedup clients).filter _) ?_
  intro d h1 h2
  simp only [List.mem_filter, List.mem_dedup, decide_eq_true_eq] at h1 h2
  exact h2.2 h1.1

theorem mem_rangeOrder (hint clients : List ClientId) (d : ClientId) :
    d ∈ rangeOrder hint clients ↔ d ∈ clients := by
  unfold rangeOrder
  simp only [List.mem_append, List.mem_filter, List.mem_dedup, decide_eq_true_eq]
  by_cases hd : d ∈ hint <;> simp [hd]

theorem rangeOrder_self (p clients : List ClientId) (hp : p.Nodup)
    (hmem : ∀ d, d ∈ p ↔ d ∈ clients) : rangeOrder p clients = p := by
  unfold rangeOrder
  have h1 : p.dedup.filter (fun d => d ∈ clients) = p := by
    rw [hp.dedup, List.filter_eq_self]
    intro d hd
    simpa using (hmem d).1 hd
  have h2 : clients.dedup.filter (fun d => d ∉ p) = [] := by
    rw [List.filter_eq_nil_iff]
    intro d hd
    simpa using (hmem d).2 (List.mem_dedup.1 hd)
  rw [h1, h2, List.append_nil]

/-! ## One broadcast -/

theorem visit_open (m : Msg) (h : Hub) (c : ClientId) (hc : (h.send c).closed = false) :
    visit m h c = .ok ⟨if (h.send c).buf.length < (h.send c).cap then h.clients
        else h.clients.filter (fun d => d ≠ c),
      Function.update h.send c (deliver m (h.send c))⟩ := by
  unfold visit deliver
  by_cases hfree : (h.send c).buf.length < (h.send c).cap
  · simp [hc, hfree, Hub.setSend]
  · simp [hc, hfree, Hub.setSend, Hub.delete, Chan.close]

theorem broadcastLoop_open (m : Msg) :
    ∀ (order : List ClientId) (h : Hub), order.Nodup →
      (∀ d ∈ order, (h.send d).closed = false) →
      ∃ h1, broadcastLoop m order h = .ok h1 ∧
        (∀ d, h1.send d = if d ∈ order then deliver m (h.send d) else h.send d) ∧
        (∀ d, d ∈ h1.clients ↔
          d ∈ h.clients ∧ ¬ (d ∈ order ∧ (h.send d).cap ≤ (h.send d).buf.length)) := by
  intro order
  induction order with
  | nil =>
    intro h _ _
    exact ⟨h, rfl, by simp, by simp⟩
  | cons c rest ih =>
    intro h hnd hopen
    have hc : (h.send c).closed = false := hopen c (List.mem_cons_self _ _)
    have hcr : c ∉ rest := (List.nodup_cons.1 hnd).1
    have hrest : rest.Nodup := (List.nodup_cons.1 hnd).2
    obtain ⟨h1, hrun, hsend, hmem⟩ := ih
      ⟨if (h.send c).buf.length < (h.send c).cap then h.clients
        else h.clients.filter (fun d => d ≠ c),
      Function.update h.send c (deliver m (h.send c))⟩ hrest (by
        intro d hd
        have hdc : d ≠ c := fun e => hcr (e ▸ hd)
        simp only [Function.update_noteq hdc]
        exact hopen d (List.mem_cons_of_mem _ hd))
    refine ⟨h1, ?_, ?_, ?_⟩
    · simp only [broadcastLoop, visit_open m h c hc]
      exact hrun
    · intro d
      rw [hsend d]
      by_cases hdc : d = c
      · subst hdc
        simp [hcr]
      · simp [hdc, Function.update_noteq hdc]
    · intro d
      rw [hmem d]
      by_cases hdc : d = c
      · subst hdc
        by_cases hfree : (h.send d).buf.length < (h.send d).cap
        · simp [hfree, hcr, Nat.not_le.2 hfree]
        · simp [hfree, hcr, Nat.not_lt.1 hfree]
      · by_cases hfree : (h.send c).buf.length < (h.send c).cap
        · simp [hfree, hdc, Function.update_noteq hdc]
        · simp [hfree, hdc, Function.update_noteq hdc, List.mem_filter]

theorem step_broadcast_open (h : Hub) (m : Msg) (hint : List ClientId)
    (hopen : ∀ d ∈ h.clients, (h.send d).closed = false) :
    ∃ h1, step h (.broadcast m hint) = .ok h1 ∧
      (∀ d, h1.send d = if d ∈ h.clients then deliver m (h.send d) else h.send d) ∧
      (∀ d, d ∈ h1.clients ↔ d ∈ h.clients ∧ (h.send d).buf.length < (h.send d).cap) := by
  obtain ⟨h1, hrun, hsend, hmem⟩ := broadcastLoop_open m (rangeOrder hint h.clients) h
    (rangeOrder_nodup _ _) (fun d hd => hopen d ((mem_rangeOrder _ _ d).1 hd))
  refine ⟨h1, hrun, ?_, ?_⟩
  · intro d
    rw [hsend d]
    simp only [mem_rangeOrder]
  · intro d
    rw [hmem d, mem_rangeOrder]
    constructor
    · rintro ⟨h2, h3⟩
      exact ⟨h2, Nat.lt_of_not_le fun hle => h3 ⟨h2, hle⟩⟩
    · rintro ⟨h2, h3⟩
      exact ⟨h2, fun hle => Nat.not_le.2 h3 hle.2⟩

/-- C1 (as stated) fails: in `closedMemberHub` client 0 is a member with an
open queue and two free slots, yet processing one broadcast panics with a send
on client 1's closed queue, whether the registry is iterated 0, 1 or 1, 0. -/
theorem c1_counterexample :
    0 ∈ closedMemberHub.clients ∧ (closedMemberHub.send 0).closed = false ∧
    (closedMemberHub.send 0).buf.length + 1 ≤ (closedMemberHub.send 0).cap ∧
    rangeOrder [0, 1] closedMemberHub.clients = [0, 1] ∧
    rangeOrder [1, 0] closedMemberHub.clients = [1, 0] ∧
    (match Run closedMemberHub (broadcasts [([104, 105], [0, 1])]) with
      | .ok _ => false | .error f => f == Fault.sendOnClosed) = true ∧
    (match Run closedMemberHub (broadcasts [([104, 105], [1, 0])]) with
      | .ok _ => false | .error f => f == Fault.sendOnClosed) = true := by
  refine ⟨by decide, rfl, by decide, by decide, by decide, rfl, rfl⟩

/-- C1 (amended): from a hub state in which every member's queue is open,
after the broadcasts of `m1..mk` a member that had `k` free slots is still a
member, its queue is still open and holds its previous contents followed by
`m1..mk`, whatever the iteration orders and the other members' queues. -/
theorem broadcast_fifo (ms : List (Msg × List ClientId)) :
    ∀ (h : Hub) (c : ClientId), (∀ d ∈ h.clients, (h.send d).closed = false) →
      c ∈ h.clients → (h.send c).buf.length + ms.length ≤ (h.send c).cap →
      ∃ h1, Run h (broadcasts ms) = .ok h1 ∧ c ∈ h1.clients ∧
        (h1.send c).closed = false ∧
        (h1.send c).buf = (h.send c).buf ++ ms.map Prod.fst := by
  induction ms with
  | nil =>
    intro h c hopen hc _
    exact ⟨h, rfl, hc, hopen c hc, by simp⟩
  | cons p ms ih =>
    intro h c hopen hc hfree
    obtain ⟨h1, hstep, hsend, hmem⟩ := step_broadcast_open h p.1 p.2 hopen
    have hlt : (h.send c).buf.length < (h.send c).cap := by
      simp only [List.length_cons] at hfree
      omega
    have hsc : h1.send c = { h.send c with buf := (h.send c).buf ++ [p.1] } := by
      rw [hsend c]
      simp [hc, deliver, hlt]
    have hopen1 : ∀ d ∈ h1.clients, (h1.send d).closed = false := by
      intro d hd
      obtain ⟨hd1, hd2⟩ := (hmem d).1 hd
      rw [hsend d]
      simp [hd1, deliver, hd2, hopen d hd1]
    obtain ⟨h2, hrun, hc2, hcl2, hbuf2⟩ := ih h1 c hopen1 ((hmem c).2 ⟨hc, hlt⟩) (by
      rw [hsc]
      simp only [List.length_append, List.length_cons, List.length_nil] at hfree ⊢
      omega)
    refine ⟨h2, ?_, hc2, hcl2, ?_⟩
    · simp only [broadcasts, List.map_cons, Run] at hrun ⊢
      rw [hstep]
      exact hrun
    · rw [hbuf2, hsc]
      simp

/-- Witness of `broadcast_fifo`: two broadcasts into a registry of two open
queues of capacity 2. -/
theorem broadcast_fifo_witness :
    ∃ h1, Run (⟨[0, 1], fun _ => Chan.make 2⟩ : Hub)
        (broadcasts [([1], [1, 0]), ([2], [])]) = .ok h1 ∧ 0 ∈ h1.clients ∧
      (h1.send 0).closed = false ∧
      (h1.send 0).buf = (Chan.make 2).buf ++ [[1], [2]] :=
  broadcast_fifo [([1], [1, 0]), ([2], [])] ⟨[0, 1], fun _ => Chan.make 2⟩ 0
    (fun _ _ => rfl) (by decide) (by decide)

/-- C2 (as stated) fails: in `fullAndClosedHub` client 0 is a member whose
open queue is full, yet a broadcast that reaches client 1 first panics with a
send on client 1's closed queue and client 0 is never evicted. -/
theorem c2_counterexample :
    0 ∈ fullAndClosedHub.clients ∧
    (fullAndClosedHub.send 0).buf.length = (fullAndClosedHub.send 0).cap ∧
    rangeOrder [1, 0] fullAndClosedHub.clients = [1, 0] ∧
    (match step fullAndClosedHub (.broadcast [104] [1, 0]) with
      | .ok _ => false | .error f => f == Fault.sendOnClosed) = true := by
  refine ⟨by decide, rfl, by decide, rfl⟩

/-- C2 (amended): from a hub state in which every member's queue is open, one
broadcast removes a member whose queue is full from the registry and closes its
queue (once) without adding the message to it. -/
theorem broadcast_evicts_full (h : Hub) (m : Msg) (hint : List ClientId) (c : ClientId)
    (hopen : ∀ d ∈ h.clients, (h.send d).closed = false) (hc : c ∈ h.clients)
    (hfull : (h.send c).cap ≤ (h.send c).buf.length) :
    ∃ h1, step h (.broadcast m hint) = .ok h1 ∧ c ∉ h1.clients ∧
      (h1.send c).closed = true ∧ (h1.send c).buf = (h.send c).buf ∧
      (h1.send c).closes = (h.send c).closes + 1 := by
  obtain ⟨h1, hstep, hsend, hmem⟩ := step_broadcast_open h m hint hopen
  have hnlt : ¬ (h.send c).buf.length < (h.send c).cap := Nat.not_lt.2 hfull
  have hsc : h1.send c = { h.send c with closed := true, closes := (h.send c).closes + 1 } := by
    rw [hsend c]
    simp [hc, deliver, hnlt]
  refine ⟨h1, hstep, fun hin => hnlt ((hmem c).1 hin).2, ?_, ?_, ?_⟩ <;> rw [hsc]

/-- Witness of `broadcast_evicts_full`: client 0 holds one message in a queue
of capacity one. -/
theorem broadcast_evicts_full_witness :
    ∃ h1, step (⟨[0, 1], fun c => if c = 0 then ⟨[[7]], 1, false, 0⟩ else Chan.make 4⟩ : Hub)
        (.broadcast [104] [1]) = .ok h1 ∧ 0 ∉ h1.clients ∧
      (h1.send 0).closed = true ∧ (h1.send 0).buf = [[7]] ∧
      (h1.send 0).closes = 0 + 1 :=
  broadcast_evicts_full ⟨[0, 1], fun c => if c = 0 then ⟨[[7]], 1, false, 0⟩ else Chan.make 4⟩
    [104] [1] 0 (by
      intro d _
      by_cases hd : d = 0 <;> simp [hd, Chan.make]) (by decide) (by decide)

/-! ## Register and unregister -/

theorem step_unregister_absent (h : Hub) (c : ClientId) (hc : c ∉ h.clients) :
    step h (.unregister c) = .ok h := by
  simp [step, hc]

theorem step_unregister_open (h : Hub) (c : ClientId) (hc : c ∈ h.clients)
    (ho : (h.send c).closed = false) :
    step h (.unregister c) = .ok ⟨h.clients.filter (fun d => d ≠ c),
      Function.update h.send c { h.send c with closed := true, closes := (h.send c).closes + 1 }⟩ := by
  simp [step, hc, Hub.delete, Hub.setSend, Chan.close, ho]

theorem step_unregister_closed (h : Hub) (c : ClientId) (hc : c ∈ h.clients)
    (ho : (h.send c).closed = true) :
    step h (.unregister c) = .error .closeOfClosed := by
  simp [step, hc, Hub.delete, Chan.close, ho]

theorem lastNaming_cons (c : ClientId) (e : Event) (es : List Event) :
    lastNaming c (e :: es) =
      match lastNaming c es with
      | some e1 => some e1
      | none => if e.names c then some e else none := by
  unfold lastNaming
  by_cases he : e.names c = true
  · rw [List.filter_cons_of_pos he]
    cases hfs : es.filter (fun e => e.names c) with
    | nil => simp [he]
    | cons a l =>
      rw [List.getLast?_cons_cons]
      cases hg : (a :: l).getLast? with
      | none => simp at hg
      | some x => rfl
  · rw [List.filter_cons_of_neg he]
    cases hfs : (es.filter (fun e => e.names c)).getLast? <;> simp [he]

theorem run_membership (c : ClientId) :
    ∀ (evs : List Event) (h h1 : Hub), (∀ e ∈ evs, e.isMembership = true) →
      Run h evs = .ok h1 →
      (h.clients.Nodup → h1.clients.Nodup) ∧
      (c ∈ h1.clients ↔ lastNaming c evs = some (.register c) ∨
        (lastNaming c evs = none ∧ c ∈ h.clients)) := by
  intro evs
  induction evs with
  | nil =>
    intro h h1 _ hrun
    simp only [Run, Except.ok.injEq] at hrun
    subst hrun
    simp [lastNaming]
  | cons e es ih =>
    intro h h1 hev hrun
    have hes : ∀ e ∈ es, e.isMembership = true := fun x hx => hev x (List.mem_cons_of_mem _ hx)
    simp only [Run] at hrun
    cases hstep : step h e with
    | error f => simp [hstep] at hrun
    | ok h2 =>
      simp only [hstep] at hrun
      obtain ⟨ihn, ihm⟩ := ih h2 h1 hes hrun
      rw [ihm, lastNaming_cons]
      cases e with
      | broadcast m hint => simpa [Event.isMembership] using hev _ (List.mem_cons_self _ _)
      | register d =>
        simp only [step, Except.ok.injEq] at hstep
        subst hstep
        refine ⟨fun hn => ihn (hn.insert), ?_⟩
        cases hl : lastNaming c es with
        | some e1 => simp
        | none =>
          by_cases hdc : d = c
          · subst hdc
            simp [Event.names]
          · have hcd : c ≠ d := fun x => hdc x.symm
            simp [Event.names, hdc, List.mem_insert_iff, hcd]
      | unregister d =>
        have hcl : h2.clients = h.clients.filter (fun x => x ≠ d) := by
          by_cases hd : d ∈ h.clients
          · cases ho : (h.send d).closed with
            | true => rw [step_unregister_closed h d hd ho] at hstep; cases hstep
            | false =>
              rw [step_unregister_open h d hd ho] at hstep
              simp only [Except.ok.injEq] at hstep
              subst hstep
              rfl
          · rw [step_unregister_absent h d hd] at hstep
            simp only [Except.ok.injEq] at hstep
            subst hstep
            symm
            rw [List.filter_eq_self]
            intro x hx
            simpa using fun hxd : x = d => hd (hxd ▸ hx)
        refine ⟨fun hn => ihn (hcl ▸ hn.filter _), ?_⟩
        cases hl : lastNaming c es with
        | some e1 => simp
        | none =>
          by_cases hdc : d = c
          · subst hdc
            simp [Event.names, hcl, List.mem_filter]
          · have hcd : c ≠ d := fun x => hdc x.symm
            simp [Event.names, hdc, hcl, List.mem_filter, hcd]

theorem run_neverReRegisters :
    ∀ (evs : List Event) (h : Hub), (∀ e ∈ evs, e.isMembership = true) →
      neverReRegisters evs = true →
      (∀ c, (h.send c).closed = true → c ∉ h.clients ∧ Event.register c ∉ evs) →
      ∃ h1, Run h evs = .ok h1 := by
  intro evs
  induction evs with
  | nil => intro h _ _ _; exact ⟨h, rfl⟩
  | cons e es ih =>
    intro h hev hnr hinv
    have hes : ∀ e ∈ es, e.isMembership = true := fun x hx => hev x (List.mem_cons_of_mem _ hx)
    cases e with
    | broadcast m hint => simpa [Event.isMembership] using hev _ (List.mem_cons_self _ _)
    | register d =>
      simp only [neverReRegisters] at hnr
      obtain ⟨h1, hrun⟩ := ih { h with clients := h.clients.insert d } hes hnr (by
        intro c hc
        obtain ⟨h2, h3⟩ := hinv c hc
        have hcd : c ≠ d := fun x => h3 (x ▸ List.mem_cons_self _ _)
        exact ⟨by simp [List.mem_insert_iff, hcd, h2], fun hx => h3 (List.mem_cons_of_mem _ hx)⟩)
      exact ⟨h1, by simpa [Run, step] using hrun⟩
    | unregister d =>
      simp only [neverReRegisters, Bool.and_eq_true, Bool.not_eq_true', List.contains_eq_any_beq,
        List.any_eq_false, beq_iff_eq] at hnr
      by_cases hd : d ∈ h.clients
      · have ho : (h.send d).closed = false := by
          cases hx : (h.send d).closed with
          | false => rfl
          | true => exact absurd hd (hinv d hx).1
        obtain ⟨h1, hrun⟩ := ih ⟨h.clients.filter (fun x => x ≠ d),
            Function.update h.send d
              { h.send d with closed := true, closes := (h.send d).closes + 1 }⟩ hes hnr.2 (by
          intro c hc
          by_cases hcd : c = d
          · subst hcd
            exact ⟨by simp [List.mem_filter], fun hx => hnr.1 _ hx rfl⟩
          · simp only [Function.update_noteq hcd] at hc
            obtain ⟨h2, h3⟩ := hinv c hc
            exact ⟨fun hx => h2 (List.mem_filter.1 hx).1, fun hx => h3 (List.mem_cons_of_mem _ hx)⟩)
        refine ⟨h1, ?_⟩
        simp only [Run, step_unregister_open h d hd ho]
        exact hrun
      · obtain ⟨h1, hrun⟩ := ih h hes hnr.2 (fun c hc =>
          ⟨(hinv c hc).1, fun hx => (hinv c hc).2 (List.mem_cons_of_mem _ hx)⟩)
        refine ⟨h1, ?_⟩
        simp only [Run, step_unregister_absent h d hd]
        exact hrun

/-- C4 (as stated) fails: from an empty registry with every queue open, the
hub loop does not get through register, unregister, register, unregister of
client 0 followed by a register of client 1: the second unregister closes the
queue of client 0 a second time and the loop panics, so the register of client
1, the last event naming it, is never processed. -/
theorem c4_counterexample :
    (match Run (NewHub (fun _ => NewClient))
        [.register 0, .unregister 0, .register 0, .unregister 0, .register 1] with
      | .ok _ => false | .error f => f == Fault.closeOfClosed) = true ∧
    lastNaming 1 [.register 0, .unregister 0, .register 0, .unregister 0, .register 1] =
      some (.register 1) := by
  exact ⟨rfl, by decide⟩

/-- C4 (amended): whenever the hub loop gets through a sequence of register
and unregister events from an empty registry, the registry has no duplicate
entry and holds exactly the clients whose last naming event is a register; and
it does get through every such sequence that starts with all queues open and
never registers a client again after unregistering it. -/
theorem registry_tracks_last_event (send0 : ClientId → Chan) (evs : List Event)
    (hev : ∀ e ∈ evs, e.isMembership = true) :
    (∀ h1, Run (NewHub send0) evs = .ok h1 →
      h1.clients.Nodup ∧ ∀ c, (c ∈ h1.clients ↔ lastNaming c evs = some (.register c))) ∧
    ((∀ c, (send0 c).closed = false) → neverReRegisters evs = true →
      ∃ h1, Run (NewHub send0) evs = .ok h1) := by
  constructor
  · intro h1 hrun
    refine ⟨(run_membership 0 evs _ h1 hev hrun).1 List.nodup_nil, fun c => ?_⟩
    rw [(run_membership c evs _ h1 hev hrun).2]
    simp [NewHub]
  · intro hopen hnr
    refine run_neverReRegisters evs _ hev hnr (fun c hc => ?_)
    simp [NewHub, hopen c] at hc

/-- Witness of `registry_tracks_last_event`: client 0 registered twice, client
1 registered and unregistered, client 2 only unregistered. -/
theorem registry_tracks_last_event_witness :
    ∃ h1, Run (NewHub (fun _ => NewClient))
        [.register 0, .register 0, .register 1, .unregister 1, .unregister 2] = .ok h1 ∧
      h1.clients.Nodup ∧ 0 ∈ h1.clients ∧ 1 ∉ h1.clients ∧ 2 ∉ h1.clients := by
  have key := registry_tracks_last_event (fun _ => NewClient)
    [.register 0, .register 0, .register 1, .unregister 1, .unregister 2] (by decide)
  obtain ⟨h1, hrun⟩ := key.2 (fun _ => rfl) (by decide)
  obtain ⟨hnd, hmem⟩ := key.1 h1 hrun
  refine ⟨h1, hrun, hnd, (hmem 0).2 (by decide), fun h => ?_, fun h => ?_⟩
  · exact absurd ((hmem 1).1 h) (by decide)
  · exact absurd ((hmem 2).1 h) (by decide)

/-- C5: processing `unregister(c)` a second time changes nothing, so two in a
row give the same outcome as one; processing it for a client that is not in the
registry leaves the hub state (registry, queues, close counts) as it is; and for
a member with an open queue it removes the member and closes its queue once. -/
theorem unregister_idempotent (h : Hub) (c : ClientId) :
    (∀ h1, step h (.unregister c) = .ok h1 → step h1 (.unregister c) = .ok h1) ∧
    Run h [.unregister c, .unregister c] = Run h [.unregister c] ∧
    (c ∉ h.clients → step h (.unregister c) = .ok h) ∧
    (c ∈ h.clients → (h.send c).closed = false →
      step h (.unregister c) = .ok ⟨h.clients.filter (fun d => d ≠ c),
        Function.update h.send c
          { h.send c with closed := true, closes := (h.send c).closes + 1 }⟩) := by
  have first : ∀ h1, step h (.unregister c) = .ok h1 → step h1 (.unregister c) = .ok h1 := by
    intro h1 hstep
    by_cases hc : c ∈ h.clients
    · cases ho : (h.send c).closed with
      | true => rw [step_unregister_closed h c hc ho] at hstep; cases hstep
      | false =>
        rw [step_unregister_open h c hc ho] at hstep
        simp only [Except.ok.injEq] at hstep
        subst hstep
        exact step_unregister_absent _ c (by simp [List.mem_filter])
    · rw [step_unregister_absent h c hc] at hstep
      simp only [Except.ok.injEq] at hstep
      subst hstep
      exact step_unregister_absent _ c hc
  refine ⟨first, ?_, step_unregister_absent h c, step_unregister_open h c⟩
  simp only [Run]
  cases hstep : step h (.unregister c) with
  | error f => rfl
  | ok h1 => simp [first h1 hstep]

/-- Witness of `unregister_idempotent`: client 0 is a member with an open
queue, client 1 is not a member. -/
theorem unregister_idempotent_witness :
    step (⟨[0], fun _ => Chan.make 2⟩ : Hub) (.unregister 1) = .ok ⟨[0], fun _ => Chan.make 2⟩ ∧
    step (⟨[0], fun _ => Chan.make 2⟩ : Hub) (.unregister 0) =
      .ok ⟨[0].filter (fun d => d ≠ 0), Function.update (fun _ => Chan.make 2) 0
        { Chan.make 2 with closed := true, closes := (Chan.make 2).closes + 1 }⟩ :=
  ⟨(unregister_idempotent ⟨[0], fun _ => Chan.make 2⟩ 1).2.2.1 (by decide),
   (unregister_idempotent ⟨[0], fun _ => Chan.make 2⟩ 0).2.2.2 (by decide) rfl⟩

/-! ## Queues are open for members and closed once for removed clients -/

theorem good_step (send0 : ClientId → Chan) (past : List Event) (h : Hub) (e : Event)
    (hg : Good send0 past h) (hreg : ∀ c, e = .register c → (h.send c).closed = false) :
    ∃ h1, step h e = .ok h1 ∧ Good send0 (past ++ [e]) h1 := by
  cases e with
  | register d =>
    refine ⟨{ h with clients := h.clients.insert d }, rfl, fun c => ?_⟩
    obtain ⟨g1, g2, g3⟩ := hg c
    by_cases hcd : c = d
    · subst hcd
      have ho := hreg c rfl
      have hcl : (h.send c).closes = (send0 c).closes := by
        by_cases hc : c ∈ h.clients
        · exact (g1 hc).2.1
        · by_cases hp : Event.register c ∈ past
          · rw [(g2 hc hp).1] at ho; cases ho
          · exact (g3 hp).2
      refine ⟨fun _ => ⟨ho, hcl, by simp⟩, fun hx => ?_, fun hx => ?_⟩
      · simp [List.mem_insert_iff] at hx
      · simp at hx
    · have hne : Event.register c ≠ Event.register d := fun x => hcd (Event.register.inj x)
      refine ⟨fun hx => ?_, fun hx hy => ?_, fun hx => ?_⟩
      · have hc : c ∈ h.clients := by simpa [List.mem_insert_iff, hcd] using hx
        exact ⟨(g1 hc).1, (g1 hc).2.1, by simp [(g1 hc).2.2]⟩
      · have hc : c ∉ h.clients := fun hc => hx (by simp [List.mem_insert_iff, hc])
        exact g2 hc (by simpa [hne] using hy)
      · exact g3 (fun hp => hx (by simp [hp]))
  | unregister d =>
    by_cases hd : d ∈ h.clients
    · have ho := ((hg d).1 hd).1
      refine ⟨_, step_unregister_open h d hd ho, fun c => ?_⟩
      obtain ⟨g1, g2, g3⟩ := hg c
      by_cases hcd : c = d
      · subst hcd
        refine ⟨fun hx => ?_, fun _ _ => ?_, fun hx => ?_⟩
        · simp [List.mem_filter] at hx
        · simp [(g1 hd).2.1]
        · exact absurd (g1 hd).2.2 (fun hp => hx (by simp [hp]))
      · simp only [Function.update_noteq hcd, List.mem_filter, decide_eq_true_eq, ne_eq, hcd,
          not_false_eq_true, and_true, List.mem_append, List.mem_singleton, reduceCtorEq, or_false]
        exact ⟨g1, g2, g3⟩
    · refine ⟨h, step_unregister_absent h d hd, fun c => ?_⟩
      simpa using hg c
  | broadcast m hint =>
    obtain ⟨h1, hstep, hsend, hmem⟩ := step_broadcast_open h m hint (fun d hd => ((hg d).1 hd).1)
    refine ⟨h1, hstep, fun c => ?_⟩
    obtain ⟨g1, g2, g3⟩ := hg c
    simp only [List.mem_append, List.mem_singleton, reduceCtorEq, or_false]
    refine ⟨fun hx => ?_, fun hx hy => ?_, fun hx => ?_⟩
    · obtain ⟨hc, hfree⟩ := (hmem c).1 hx
      rw [hsend c]
      simpa [hc, deliver, hfree] using g1 hc
    · rw [hsend c]
      by_cases hc : c ∈ h.clients
      · have hfull : ¬ (h.send c).buf.length < (h.send c).cap := fun hf => hx ((hmem c).2 ⟨hc, hf⟩)
        simp [hc, deliver, hfull, (g1 hc).2.1]
      · simpa [hc] using g2 hc hy
    · have hc : c ∉ h.clients := fun hc => hx (g1 hc).2.2
      rw [hsend c]
      simpa [hc] using g3 hx

theorem good_run (send0 : ClientId → Chan) :
    ∀ (evs past : List Event) (h : Hub), Good send0 past h →
      (∀ c, (past ++ evs).count (Event.register c) ≤ 1) →
      ∃ h1, Run h evs = .ok h1 ∧ Good send0 (past ++ evs) h1 := by
  intro evs
  induction evs with
  | nil =>
    intro past h hg _
    exact ⟨h, rfl, by simpa using hg⟩
  | cons e es ih =>
    intro past h hg honce
    obtain ⟨h1, hstep, hg1⟩ := good_step send0 past h e hg (by
      intro c hec
      subst hec
      refine ((hg c).2.2 fun hp => ?_).1
      have h1 := honce c
      have h2 : 1 ≤ past.count (Event.register c) := List.count_pos_iff.2 hp
      simp only [List.count_append, List.count_cons_self] at h1
      omega)
    obtain ⟨h2, hrun, hg2⟩ := ih (past ++ [e]) h1 hg1 (by simpa using honce)
    refine ⟨h2, ?_, by simpa using hg2⟩
    simp only [Run, hstep]
    exact hrun

theorem good_start (send0 : ClientId → Chan) (hopen : ∀ c, (send0 c).closed = false) :
    Good send0 [] (NewHub send0) := by
  intro c
  simp [NewHub, hopen c]

theorem good_take (send0 : ClientId → Chan) (evs : List Event)
    (hopen : ∀ c, (send0 c).closed = false)
    (honce : ∀ c, evs.count (Event.register c) ≤ 1) (n : Nat) :
    ∃ h1, Run (NewHub send0) (evs.take n) = .ok h1 ∧ Good send0 (evs.take n) h1 := by
  have := good_run send0 (evs.take n) [] (NewHub send0) (good_start send0 hopen) (by
    intro c
    simpa using Nat.le_trans ((List.take_sublist n evs).count_le _) (honce c))
  simpa using this

/-- C9 (as stated) fails: from an empty registry with every queue open, after
register, unregister, register of one client the client is a member of the
registry and its queue is closed. -/
theorem c9_counterexample :
    (match Run (NewHub (fun _ => NewClient))
        [.register 0, .unregister 0, .register 0] with
      | .ok h1 => decide (0 ∈ h1.clients) && (h1.send 0).closed
      | .error _ => false) = true := by
  rfl

theorem good_run_open (send0 : ClientId → Chan) :
    ∀ (evs past : List Event) (h : Hub), Good send0 past h → registersOpen h evs = true →
      ∃ h1, Run h evs = .ok h1 ∧ Good send0 (past ++ evs) h1 := by
  intro evs
  induction evs with
  | nil =>
    intro past h hg _
    exact ⟨h, rfl, by simpa using hg⟩
  | cons e es ih =>
    intro past h hg hro
    simp only [registersOpen, Bool.and_eq_true] at hro
    obtain ⟨h1, hstep, hg1⟩ := good_step send0 past h e hg (by
      intro c hec
      subst hec
      simpa using hro.1)
    have hrest : registersOpen h1 es = true := by simpa [hstep] using hro.2
    obtain ⟨h2, hrun, hg2⟩ := ih (past ++ [e]) h1 hg1 hrest
    refine ⟨h2, ?_, by simpa using hg2⟩
    simp only [Run, hstep]
    exact hrun

theorem registersOpen_take :
    ∀ (evs : List Event) (h : Hub) (n : Nat), registersOpen h evs = true →
      registersOpen h (evs.take n) = true := by
  intro evs
  induction evs with
  | nil => intro h n _; simp [registersOpen]
  | cons e es ih =>
    intro h n hro
    cases n with
    | zero => rfl
    | succ n =>
      simp only [registersOpen, Bool.and_eq_true, List.take_succ_cons] at hro ⊢
      refine ⟨hro.1, ?_⟩
      cases hstep : step h e with
      | error f => rfl
      | ok h1 =>
        simp only [hstep] at hro ⊢
        exact ih h1 n hro.2

theorem registersOpen_of_members_open :
    ∀ (evs : List Event) (h : Hub),
      (∀ n, ∃ h1, Run h (evs.take n) = .ok h1 ∧ ∀ c ∈ h1.clients, (h1.send c).closed = false) →
      registersOpen h evs = true := by
  intro evs
  induction evs with
  | nil => intro h _; rfl
  | cons e es ih =>
    intro h hall
    obtain ⟨h1, hrun1, hopen1⟩ := hall 1
    simp only [List.take_succ_cons, List.take_zero, Run] at hrun1
    cases hstep : step h e with
    | error f => simp [hstep] at hrun1
    | ok h2 =>
      simp only [hstep, Except.ok.injEq] at hrun1
      subst hrun1
      simp only [registersOpen, Bool.and_eq_true, hstep]
      constructor
      · cases e with
        | register c =>
          simp only [step, Except.ok.injEq] at hstep
          subst hstep
          have := hopen1 c (by simp [List.mem_insert_iff])
          simpa using this
        | unregister c => rfl
        | broadcast m hint => rfl
      · refine ih h2 (fun n => ?_)
        obtain ⟨h3, hrun3, hopen3⟩ := hall (n + 1)
        simp only [List.take_succ_cons, Run, hstep] at hrun3
        exact ⟨h3, hrun3, hopen3⟩

/-- C9 (amended): from an empty registry with every queue open, for every
sequence of register, unregister and broadcast events in which every register
names a client whose queue is open when the hub loop processes it, the loop
gets through the sequence and after each step every member has an open queue
and every client registered earlier that is no longer a member has a closed
queue; and these are the only sequences for which that holds after each
step. -/
theorem member_open_removed_closed (send0 : ClientId → Chan) (evs : List Event)
    (hopen : ∀ c, (send0 c).closed = false) :
    registersOpen (NewHub send0) evs = true ↔
      ∀ n, ∃ h1, Run (NewHub send0) (evs.take n) = .ok h1 ∧
        (∀ c ∈ h1.clients, (h1.send c).closed = false) ∧
        (∀ c, Event.register c ∈ evs.take n → c ∉ h1.clients →
          (h1.send c).closed = true) := by
  constructor
  · intro hro n
    obtain ⟨h1, hrun, hg⟩ := good_run_open send0 (evs.take n) [] (NewHub send0)
      (good_start send0 hopen) (registersOpen_take evs _ n hro)
    simp only [List.nil_append] at hg
    exact ⟨h1, hrun, fun c hc => ((hg c).1 hc).1, fun c hr hc => ((hg c).2.1 hc hr).1⟩
  · intro hall
    refine registersOpen_of_members_open evs _ (fun n => ?_)
    obtain ⟨h1, hrun, hmem, _⟩ := hall n
    exact ⟨h1, hrun, hmem⟩

/-- Witness of `member_open_removed_closed`: client 0 is registered twice
while a member, the second broadcast evicts it from its queue of capacity one,
client 1 registers and leaves. -/
theorem member_open_removed_closed_witness :
    ∃ h1, Run (NewHub (fun _ => Chan.make 1))
        (List.take 6 [.register 0, .register 0, .register 1, .broadcast [1] [],
          .unregister 1, .broadcast [2] [0]]) = .ok h1 ∧
      (∀ c ∈ h1.clients, (h1.send c).closed = false) ∧
      (∀ c, Event.register c ∈ List.take 6 [.register 0, .register 0, .register 1,
          .broadcast [1] [], .unregister 1, .broadcast [2] [0]] → c ∉ h1.clients →
        (h1.send c).closed = true) :=
  (member_open_removed_closed (fun _ => Chan.make 1)
    [.register 0, .register 0, .register 1, .broadcast [1] [], .unregister 1,
      .broadcast [2] [0]]
    (fun _ => rfl)).1 rfl 6

/-- C10: when each client is submitted to register at most once and every
queue is open at the start, the hub loop gets through every prefix of every
sequence of register, unregister and broadcast events without a panic (no
close of a closed queue, no send on a closed queue), and after it each queue
was closed at most once: exactly once when the client was registered and is no
longer a member, and not at all otherwise. -/
theorem queue_closed_at_most_once (send0 : ClientId → Chan) (evs : List Event)
    (hopen : ∀ c, (send0 c).closed = false)
    (honce : ∀ c, evs.count (Event.register c) ≤ 1) (n : Nat) :
    ∃ h1, Run (NewHub send0) (evs.take n) = .ok h1 ∧
      ∀ c, (h1.send c).closes ≤ (send0 c).closes + 1 ∧
        (Event.register c ∈ evs.take n → c ∉ h1.clients →
          (h1.send c).closes = (send0 c).closes + 1) ∧
        (c ∈ h1.clients ∨ Event.register c ∉ evs.take n →
          (h1.send c).closes = (send0 c).closes) := by
  obtain ⟨h1, hrun, hg⟩ := good_take send0 evs hopen honce n
  refine ⟨h1, hrun, fun c => ⟨?_, fun hr hc => ((hg c).2.1 hc hr).2, ?_⟩⟩
  · by_cases hr : Event.register c ∈ evs.take n
    · by_cases hc : c ∈ h1.clients
      · rw [((hg c).1 hc).2.1]; omega
      · rw [((hg c).2.1 hc hr).2]
    · rw [((hg c).2.2 hr).2]; omega
  · rintro (hc | hr)
    · exact ((hg c).1 hc).2.1
    · exact ((hg c).2.2 hr).2

/-- Witness of `queue_closed_at_most_once`: client 0 is evicted by the second
broadcast, client 1 is unregistered twice. -/
theorem queue_closed_at_most_once_witness :
    ∃ h1, Run (NewHub (fun _ => Chan.make 1))
        (List.take 6 [.register 0, .register 1, .broadcast [1] [], .unregister 1,
          .broadcast [2] [0], .unregister 1]) = .ok h1 ∧
      ∀ c, (h1.send c).closes ≤ (Chan.make 1).closes + 1 ∧
        (Event.register c ∈ List.take 6 [.register 0, .register 1, .broadcast [1] [],
          .unregister 1, .broadcast [2] [0], .unregister 1] → c ∉ h1.clients →
          (h1.send c).closes = (Chan.make 1).closes + 1) ∧
        (c ∈ h1.clients ∨ Event.register c ∉ List.take 6 [.register 0, .register 1,
          .broadcast [1] [], .unregister 1, .broadcast [2] [0], .unregister 1] →
          (h1.send c).closes = (Chan.make 1).closes) :=
  queue_closed_at_most_once (fun _ => Chan.make 1)
    [.register 0, .register 1, .broadcast [1] [], .unregister 1, .broadcast [2] [0],
      .unregister 1]
    (fun _ => rfl) (by
      intro c
      by_cases h0 : c = 0
      · subst h0; decide
      · by_cases h1 : c = 1
        · subst h1; decide
        · simp [List.count_cons, h0, h1, Ne.symm h0, Ne.symm h1]) 6

/-! ## The outbound pump -/

theorem drain_all (cap k : Nat) (cl : Bool) :
    ∀ (buf : List Msg) (out : Msg),
      drain buf.length ⟨buf, cap, cl, k⟩ out =
        some (buf.foldl (fun acc m => acc ++ newline ++ m) out, ⟨[], cap, cl, k⟩) := by
  intro buf
  induction buf with
  | nil => intro out; rfl
  | cons m rest ih =>
    intro out
    simp only [List.length_cons, drain, Chan.recv, List.foldl_cons]
    exact ih _

theorem foldl_newline (rest : List Msg) :
    ∀ m : Msg, rest.foldl (fun acc x => acc ++ newline ++ x) m =
      List.intercalate newline (m :: rest) := by
  induction rest with
  | nil => intro m; simp [List.intercalate]
  | cons x rest ih =>
    intro m
    rw [List.foldl_cons, ih]
    cases rest <;> simp [List.intercalate, List.intersperse, List.append_assoc]

theorem WritePump_nil (cap k : Nat) (cl : Bool) :
    WritePump ⟨[], cap, cl, k⟩ = ([], if cl then .returned else .blocked) := by
  cases cl <;> rfl

theorem WritePump_one (m : Msg) (cap k : Nat) (cl : Bool) :
    WritePump ⟨[m], cap, cl, k⟩ =
      (if cl then [.close] else [], if cl then .returned else .blocked) := by
  cases cl <;> rfl

theorem WritePump_more (m1 m2 : Msg) (rest : List Msg) (cap k : Nat) (cl : Bool) :
    WritePump ⟨m1 :: m2 :: rest, cap, cl, k⟩ =
      ([.text (List.intercalate newline (m2 :: rest))],
        if cl then .returned else .blocked) := by
  simp only [WritePump, List.length_cons, WritePumpLoop, Chan.recv, drain_all, foldl_newline,
    List.nil_append]
  cases cl <;> rfl

theorem WritePump_fuel (ch : Chan) : (WritePump ch).2 ≠ .outOfFuel := by
  obtain ⟨buf, cap, cl, k⟩ := ch
  match buf with
  | [] => rw [WritePump_nil]; cases cl <;> simp
  | [m] => rw [WritePump_one]; cases cl <;> simp
  | m1 :: m2 :: rest => rw [WritePump_more]; cases cl <;> simp

/-- C7 (code evaluated): of a queue holding `m1, m2, ...` the pump writes one
text frame with `m2, ...` joined by newlines; `m1`, received by
`for range client.send`, is never written.  For the queue `"h", "i"` the
frames' payloads joined by newline are `"i"`, not `"h\ni"`. -/
theorem writePump_drops_first (m1 m2 : Msg) (rest : List Msg) (cap k : Nat) (cl : Bool) :
    WritePump ⟨m1 :: m2 :: rest, cap, cl, k⟩ =
      ([.text (List.intercalate newline (m2 :: rest))],
        if cl then .returned else .blocked) ∧
    WritePump ⟨[[104], [105]], maxMessageSize, false, 0⟩ = ([.text [105]], .blocked) ∧
    List.intercalate newline
      (textPayloads (WritePump ⟨[[104], [105]], maxMessageSize, false, 0⟩).1) = [105] ∧
    List.intercalate newline [[104], [105]] = [104, 10, 105] :=
  ⟨WritePump_more m1 m2 rest cap k cl, rfl, rfl, rfl⟩

/-- C8 (code evaluated): on a closed queue the pump, starting at the head of
its loop, returns without a close frame when the queue is empty, writes the
close frame (and drops the message) when it holds one message, and writes one
text frame and no close frame when it holds two or more. -/
theorem writePump_closed_queue (m1 m2 : Msg) (rest : List Msg) (cap k : Nat) :
    WritePump ⟨[], cap, true, k⟩ = ([], .returned) ∧
    WritePump ⟨[m1], cap, true, k⟩ = ([.close], .returned) ∧
    WritePump ⟨m1 :: m2 :: rest, cap, true, k⟩ =
      ([.text (List.intercalate newline (m2 :: rest))], .returned) :=
  ⟨WritePump_nil cap k true, WritePump_one m1 cap k true, WritePump_more m1 m2 rest cap k true⟩

/-! ## The upgrade entry point -/

/-- C3 (code evaluated): two clients admitted one after the other get the
hubs 0 and 1, each hub's registry holds its own client only, and the message
client 0 forwards is put on client 0's queue and not on client 1's. -/
theorem two_clients_two_hubs :
    ∃ w2 w3, admitTwo = .ok w2 ∧ w2.hubOf = [0, 1] ∧ w2.hubs = [[0], [1]] ∧
      ReadPumpForward w2 0 [104, 10, 105] [] = .ok w3 ∧
      (w3.send 0).buf = [[104, 32, 105]] ∧ (w3.send 1).buf = [] ∧
      (w3.send 1).closed = false :=
  ⟨_, _, rfl, rfl, rfl, rfl, rfl, rfl, rfl⟩

/-! ## The inbound pump: decoding runes -/

namespace utf8

theorem first_cases (b : Nat) :
    first b = 0xF0 ∨ first b = 0xF1 ∨ first b = 0x02 ∨ first b = 0x13 ∨ first b = 0x03 ∨
      first b = 0x23 ∨ first b = 0x34 ∨ first b = 0x04 ∨ first b = 0x44 := by
  unfold first
  split_ifs <;> simp

theorem first_ascii (b : Nat) (h : b < 0x80) : first b = 0xF0 := by
  unfold first
  simp [h]

theorem first_cont (b : Nat) (h1 : 0x80 ≤ b) (h2 : b ≤ 0xBF) : first b = 0xF1 := by
  unfold first
  have : ¬ b < 0x80 := by omega
  have : b < 0xC2 := by omega
  simp [*]

theorem first_size (b : Nat) :
    0xF0 ≤ first b ∨ (first b < 0xF0 ∧ 2 ≤ first b % 8 ∧ first b % 8 ≤ 4 ∧
      0x80 ≤ (acceptRanges (first b / 16)).1 ∧ (acceptRanges (first b / 16)).2 ≤ 0xBF) := by
  rcases first_cases b with h | h | h | h | h | h | h | h | h <;> simp [h, acceptRanges]

theorem DecodeRune_ascii (c : Nat) (t : Msg) (h : c < 0x80) : DecodeRune (c :: t) = (c, 1) := by
  simp [DecodeRune, first_ascii c h]

theorem DecodeRune_width (p : Msg) (hp : p ≠ []) :
    1 ≤ (DecodeRune p).2 ∧ (DecodeRune p).2 ≤ p.length := by
  cases p with
  | nil => exact absurd rfl hp
  | cons p0 t =>
    have hf := first_size p0
    unfold DecodeRune
    simp only [List.length_cons]
    generalize first p0 % 8 = sz at hf ⊢
    generalize acceptRanges (first p0 / 16) = acc at hf ⊢
    split_ifs <;> simp <;> omega

theorem DecodeRune_single (p0 : Nat) (t : Msg) (h : 0xF0 ≤ first p0) :
    DecodeRune (p0 :: t) = DecodeRune [p0] := by
  simp [DecodeRune, h]

theorem DecodeRune_short (p0 : Nat) (t : Msg) (h : first p0 < 0xF0)
    (hlen : (p0 :: t).length < first p0 % 8) : DecodeRune (p0 :: t) = (RuneError, 1) := by
  have h1 : ¬ 0xF0 ≤ first p0 := by omega
  simp only [DecodeRune, h1, if_false, hlen, if_true]

theorem DecodeRune_congr (p0 : Nat) (t u : Msg) (h : first p0 < 0xF0)
    (ht : first p0 % 8 ≤ (p0 :: t).length) (hu : first p0 % 8 ≤ (p0 :: u).length)
    (h1 : t.getD 0 0 = u.getD 0 0) (h2 : 3 ≤ first p0 % 8 → t.getD 1 0 = u.getD 1 0)
    (h3 : 4 ≤ first p0 % 8 → t.getD 2 0 = u.getD 2 0) :
    DecodeRune (p0 :: t) = DecodeRune (p0 :: u) := by
  have hx : ¬ 0xF0 ≤ first p0 := by omega
  have ht1 : ¬ (p0 :: t).length < first p0 % 8 := by omega
  have hu1 : ¬ (p0 :: u).length < first p0 % 8 := by omega
  have e1 : (p0 :: t).getD 1 0 = t.getD 0 0 := rfl
  have e2 : (p0 :: t).getD 2 0 = t.getD 1 0 := rfl
  have e3 : (p0 :: t).getD 3 0 = t.getD 2 0 := rfl
  have f1 : (p0 :: u).getD 1 0 = u.getD 0 0 := rfl
  have f2 : (p0 :: u).getD 2 0 = u.getD 1 0 := rfl
  have f3 : (p0 :: u).getD 3 0 = u.getD 2 0 := rfl
  unfold DecodeRune
  simp only [hx, if_false, ht1, hu1, e1, e2, e3, f1, f2, f3, h1]
  by_cases c2 : first p0 % 8 ≤ 2
  · simp only [c2, if_true]
  · have g2 := h2 (by omega)
    simp only [c2, if_false, g2]
    by_cases c3 : first p0 % 8 ≤ 3
    · simp only [c3, if_true]
    · have g3 := h3 (by omega)
      simp only [c3, if_false, g3]

theorem DecodeRune_shape (p0 : Nat) (t : Msg) (h : first p0 < 0xF0) :
    DecodeRune (p0 :: t) = (RuneError, 1) ∨
      ((DecodeRune (p0 :: t)).2 = first p0 % 8 ∧ first p0 % 8 ≤ (p0 :: t).length) := by
  have hf := first_size p0
  have h1 : ¬ 0xF0 ≤ first p0 := by omega
  unfold DecodeRune
  simp only [h1, if_false]
  generalize first p0 % 8 = sz at hf ⊢
  split_ifs <;> first | (left; rfl) | (right; simp only [List.length_cons] at *; omega)

theorem getD_take_lt (t : Msg) (j k : Nat) (h : k < j) : (t.take j).getD k 0 = t.getD k 0 := by
  simp only [List.getD_eq_getElem?_getD, List.getElem?_take_of_lt h]

theorem IsSpace_RuneError : unicode.IsSpace RuneError = false := by decide

theorem DecodeRune_cont (c : Nat) (t : Msg) (h1 : 0x80 ≤ c) (h2 : c ≤ 0xBF) :
    DecodeRune (c :: t) = (RuneError, 1) := by
  simp [DecodeRune, first_cont c h1 h2]

theorem DecodeRune_space_start (c : Nat) (t : Msg)
    (hs : unicode.IsSpace (DecodeRune (c :: t)).1 = true) : ¬ (0x80 ≤ c ∧ c ≤ 0xBF) := by
  rintro ⟨h1, h2⟩
  rw [DecodeRune_cont c t h1 h2, IsSpace_RuneError] at hs
  cases hs

theorem DecodeRune_width_one (c : Nat) (t : Msg)
    (ht : ∀ b, t.head? = some b → ¬ (0x80 ≤ b ∧ b ≤ 0xBF)) : (DecodeRune (c :: t)).2 = 1 := by
  rcases first_size c with h | ⟨h, h2, h4, hlo, hhi⟩
  · simp [DecodeRune, h]
  · rcases DecodeRune_shape c t h with hs | ⟨_, hlen⟩
    · rw [hs]
    · cases t with
      | nil => simp only [List.length_cons, List.length_nil] at hlen; omega
      | cons b t1 =>
        have hb := ht b rfl
        have hx : ¬ 0xF0 ≤ first c := by omega
        have hl : ¬ (c :: b :: t1).length < first c % 8 := by omega
        have hb1 : b < (acceptRanges (first c / 16)).1 ∨ (acceptRanges (first c / 16)).2 < b := by
          omega
        simp only [DecodeRune, hx, if_false, hl, List.getD_cons_succ, List.getD_cons_zero, hb1,
          if_true]

theorem DecodeRune_append (q tail : Msg) (h : 2 ≤ (DecodeRune q).2) :
    DecodeRune (q ++ tail) = DecodeRune q := by
  cases q with
  | nil => simp [DecodeRune] at h
  | cons p0 t =>
    rcases first_size p0 with hx | ⟨hx, h2, h4, _, _⟩
    · rw [DecodeRune_single p0 t hx] at h
      simp [DecodeRune, hx] at h
    · rcases DecodeRune_shape p0 t hx with hs | ⟨_, hlen⟩
      · rw [hs] at h; simp at h
      · simp only [List.length_cons] at hlen
        rw [List.cons_append]
        symm
        apply DecodeRune_congr p0 t (t ++ tail) hx
        · simpa using hlen
        · simp only [List.length_cons, List.length_append]; omega
        · exact (List.getD_append t tail 0 0 (by omega)).symm
        · intro h3; exact (List.getD_append t tail 0 1 (by omega)).symm
        · intro h3; exact (List.getD_append t tail 0 2 (by omega)).symm

theorem DecodeRune_take_or (t : Msg) (j : Nat) (hj : 0 < j) :
    DecodeRune (t.take j) = DecodeRune t ∨ DecodeRune (t.take j) = (RuneError, 1) := by
  cases t with
  | nil => left; simp
  | cons p0 t1 =>
    obtain ⟨j1, rfl⟩ : ∃ j1, j = j1 + 1 := ⟨j - 1, by omega⟩
    rw [List.take_succ_cons]
    rcases first_size p0 with hx | ⟨hx, h2, h4, _, _⟩
    · left
      rw [DecodeRune_single p0 _ hx, DecodeRune_single p0 t1 hx]
    · by_cases hlen : first p0 % 8 ≤ (p0 :: t1.take j1).length
      · left
        have hl := hlen
        simp only [List.length_cons, List.length_take] at hl
        apply DecodeRune_congr p0 _ _ hx hlen
        · simp only [List.length_cons]; omega
        · exact getD_take_lt t1 j1 0 (by omega)
        · intro h3; exact getD_take_lt t1 j1 1 (by omega)
        · intro h3; exact getD_take_lt t1 j1 2 (by omega)
      · right
        exact DecodeRune_short p0 _ hx (by omega)

theorem DecodeRune_take_width (s : Msg) :
    DecodeRune (s.take (DecodeRune s).2) = DecodeRune s := by
  cases s with
  | nil => rfl
  | cons p0 t =>
    rcases first_size p0 with hx | ⟨hx, h2, h4, _, _⟩
    · have hw : (DecodeRune (p0 :: t)).2 = 1 := by simp [DecodeRune, hx]
      rw [hw, List.take_succ_cons, List.take_zero, DecodeRune_single p0 t hx]
    · rcases DecodeRune_shape p0 t hx with hs | ⟨hw, hlen⟩
      · rw [hs]
        simp only [List.take_succ_cons, List.take_zero]
        exact DecodeRune_short p0 [] hx (by simp only [List.length_cons, List.length_nil]; omega)
      · rw [hw]
        obtain ⟨k, hk⟩ : ∃ k, first p0 % 8 = k + 1 := ⟨first p0 % 8 - 1, by omega⟩
        simp only [List.length_cons] at hlen
        rw [hk, List.take_succ_cons]
        apply DecodeRune_congr p0 _ _ hx
        · simp only [List.length_cons, List.length_take]; omega
        · simp only [List.length_cons]; omega
        · exact getD_take_lt t k 0 (by omega)
        · intro h3; exact getD_take_lt t k 1 (by omega)
        · intro h3; exact getD_take_lt t k 2 (by omega)

theorem scanStart_le (p : Msg) (lim : Nat) :
    ∀ (k start s : Nat), scanStart p lim k start = some s → s ≤ start := by
  intro k
  induction k with
  | zero => intro start s h; simp [scanStart] at h
  | succ k ih =>
    intro start s h
    unfold scanStart at h
    split_ifs at h with h1 h2 h3
    · simp only [Option.some.injEq] at h; omega
    · have := ih (start - 1) s h; omega

theorem drop_last (q : Msg) (hq : q ≠ []) : q.drop (q.length - 1) = [q.getD (q.length - 1) 0] := by
  induction q with
  | nil => exact absurd rfl hq
  | cons a t ih =>
    cases t with
    | nil => rfl
    | cons b t1 =>
      have := ih (by simp)
      simp only [List.length_cons, Nat.add_sub_cancel] at this ⊢
      rw [List.drop_succ_cons, List.getD_cons_succ]
      exact this

theorem DecodeLastRune_start (q : Msg) (hq : q ≠ []) (hr : ¬ q.getD (q.length - 1) 0 < RuneSelf) :
    ∃ start, start < q.length ∧
      DecodeLastRune q = if start + (DecodeRune (q.drop start)).2 ≠ q.length then (RuneError, 1)
        else DecodeRune (q.drop start) := by
  have hn : ¬ q.length = 0 := fun h => hq (List.length_eq_zero.1 h)
  unfold DecodeLastRune
  simp only [hn, if_false, hr]
  refine ⟨_, ?_, rfl⟩
  simp only [UTFMax]
  split_ifs with h1 h2
  · omega
  · split
    · rename_i s hs
      have := scanStart_le _ _ _ _ _ hs
      omega
    · omega
  · split
    · rename_i s hs
      have := scanStart_le _ _ _ _ _ hs
      omega
    · exact Nat.lt_of_lt_of_le (Nat.sub_one_lt h2) (Nat.sub_le _ _)

theorem DecodeLastRune_shape (q : Msg) (hq : q ≠ []) :
    1 ≤ (DecodeLastRune q).2 ∧ (DecodeLastRune q).2 ≤ q.length ∧
      (DecodeLastRune q = (RuneError, 1) ∨
        DecodeRune (q.drop (q.length - (DecodeLastRune q).2)) = DecodeLastRune q) := by
  have hn : ¬ q.length = 0 := fun h => hq (List.length_eq_zero.1 h)
  by_cases hr : q.getD (q.length - 1) 0 < RuneSelf
  · have he : DecodeLastRune q = (q.getD (q.length - 1) 0, 1) := by
      unfold DecodeLastRune
      simp only [hn, if_false, hr, if_true]
    rw [he]
    refine ⟨Nat.le_refl _, by omega, Or.inr ?_⟩
    rw [drop_last q hq]
    exact DecodeRune_ascii _ _ hr
  · obtain ⟨start, hlt, he⟩ := DecodeLastRune_start q hq hr
    rw [he]
    by_cases hs : start + (DecodeRune (q.drop start)).2 ≠ q.length
    · rw [if_pos hs]
      exact ⟨Nat.le_refl _, by omega, Or.inl rfl⟩
    · rw [if_neg hs]
      have hne : q.drop start ≠ [] := by
        intro h
        have := congrArg List.length h
        simp only [List.length_drop, List.length_nil] at this
        omega
      have hw := DecodeRune_width _ hne
      simp only [List.length_drop] at hw
      have hs1 : start + (DecodeRune (q.drop start)).2 = q.length := by omega
      refine ⟨hw.1, by omega, Or.inr ?_⟩
      have : q.length - (DecodeRune (q.drop start)).2 = start := by omega
      rw [this]

end utf8

/-! ## White space runs -/

theorem SpaceRun.single (ch : Msg) (hw : (utf8.DecodeRune ch).2 = ch.length)
    (hs : unicode.IsSpace (utf8.DecodeRune ch).1 = true) : SpaceRun ch := by
  have := SpaceRun.cons ch [] hw hs SpaceRun.nil
  simpa using this

theorem SpaceRun.append {a b : Msg} (ha : SpaceRun a) (hb : SpaceRun b) : SpaceRun (a ++ b) := by
  induction ha with
  | nil => simpa using hb
  | cons ch rest hw hs _ ih =>
    rw [List.append_assoc]
    exact SpaceRun.cons ch _ hw hs ih

theorem SpaceRun.head {s : Msg} (hs : SpaceRun s) :
    ∀ b, s.head? = some b → ¬ (0x80 ≤ b ∧ b ≤ 0xBF) := by
  induction hs with
  | nil => intro b hb; simp at hb
  | cons ch rest hw hsp _ ih =>
    intro b hb
    cases ch with
    | nil => rw [utf8.DecodeRune, utf8.IsSpace_RuneError] at hsp; cases hsp
    | cons c t =>
      simp only [List.cons_append, List.head?_cons, Option.some.injEq] at hb
      subst hb
      exact utf8.DecodeRune_space_start c t hsp

theorem IsSpace_ascii (c : Nat) (h : c < 0x80) : unicode.IsSpace c = bytes.asciiSpace c := by
  unfold unicode.IsSpace bytes.asciiSpace
  have h1 : c ≤ 0xFF := by omega
  have h2 : ¬ c = 0x85 := by omega
  have h3 : ¬ c = 0xA0 := by omega
  simp [h1, h2, h3]

theorem SpaceRun.ascii (c : Nat) (h : ¬ utf8.RuneSelf ≤ c) (hs : bytes.asciiSpace c = true) :
    SpaceRun [c] := by
  have hc : c < 0x80 := by simpa [utf8.RuneSelf] using h
  apply SpaceRun.single
  · rw [utf8.DecodeRune_ascii c [] hc]; rfl
  · rw [utf8.DecodeRune_ascii c [] hc, IsSpace_ascii c hc]; exact hs

namespace bytes

theorem firstRune_eq (c : Nat) (t : Msg) :
    (if utf8.RuneSelf ≤ c then utf8.DecodeRune (c :: t) else (c, 1)) = utf8.DecodeRune (c :: t) := by
  split_ifs with h
  · rfl
  · exact (utf8.DecodeRune_ascii c t (by simpa [utf8.RuneSelf] using h)).symm

theorem indexFuncLoop_spec :
    ∀ (fuel : Nat) (s : Msg), s.length ≤ fuel →
      (indexFuncLoop unicode.IsSpace false fuel s = none ∧ SpaceRun s) ∨
      (∃ i, indexFuncLoop unicode.IsSpace false fuel s = some i ∧ i < s.length ∧
        SpaceRun (s.take i) ∧ unicode.IsSpace (utf8.DecodeRune (s.drop i)).1 = false) := by
  intro fuel
  induction fuel with
  | zero =>
    intro s hs
    have : s = [] := List.length_eq_zero.1 (Nat.le_zero.1 hs)
    subst this
    exact Or.inl ⟨rfl, SpaceRun.nil⟩
  | succ fuel ih =>
    intro s hs
    cases s with
    | nil => exact Or.inl ⟨rfl, SpaceRun.nil⟩
    | cons c t =>
      simp only [indexFuncLoop, firstRune_eq]
      have hw := utf8.DecodeRune_width (c :: t) (by simp)
      by_cases hsp : unicode.IsSpace (utf8.DecodeRune (c :: t)).1 = false
      · right
        refine ⟨0, by simp [hsp], by simp, by simpa using SpaceRun.nil, by simpa using hsp⟩
      · have hsp1 : unicode.IsSpace (utf8.DecodeRune (c :: t)).1 = true := by
          simpa using hsp
        have hchunk : SpaceRun ((c :: t).take (utf8.DecodeRune (c :: t)).2) := by
          apply SpaceRun.single
          · rw [utf8.DecodeRune_take_width, List.length_take]; omega
          · rw [utf8.DecodeRune_take_width]; exact hsp1
        have hsplit := List.take_append_drop (utf8.DecodeRune (c :: t)).2 (c :: t)
        have hlen : ((c :: t).drop (utf8.DecodeRune (c :: t)).2).length ≤ fuel := by
          simp only [List.length_drop, List.length_cons] at hs hw ⊢; omega
        rcases ih _ hlen with ⟨hnone, hrun⟩ | ⟨i, hsome, hi, hrun, hns⟩
        · left
          refine ⟨by simp [hsp1, hnone], ?_⟩
          rw [← hsplit]
          exact hchunk.append hrun
        · right
          refine ⟨i + (utf8.DecodeRune (c :: t)).2, by simp [hsp1, hsome], ?_, ?_, ?_⟩
          · simp only [List.length_drop] at hi; omega
          · have : (c :: t).take (i + (utf8.DecodeRune (c :: t)).2) =
                (c :: t).take (utf8.DecodeRune (c :: t)).2 ++
                  ((c :: t).drop (utf8.DecodeRune (c :: t)).2).take i := by
              rw [Nat.add_comm, List.take_add]
            rw [this]
            exact hchunk.append hrun
          · rw [List.drop_drop] at hns
            rw [Nat.add_comm] at hns
            exact hns

theorem lastRune_eq (p : Msg) (hp : p ≠ []) :
    (if utf8.RuneSelf ≤ p.getD (p.length - 1) 0 then utf8.DecodeLastRune p
      else (p.getD (p.length - 1) 0, 1)) = utf8.DecodeLastRune p := by
  split_ifs with h
  · rfl
  · have hn : ¬ p.length = 0 := fun h0 => hp (List.length_eq_zero.1 h0)
    have hr : p.getD (p.length - 1) 0 < utf8.RuneSelf := Nat.lt_of_not_le h
    unfold utf8.DecodeLastRune
    simp only [hn, if_false, hr, if_true]

theorem lastIndexFuncLoop_spec :
    ∀ (fuel : Nat) (p : Msg), p.length ≤ fuel →
      (lastIndexFuncLoop unicode.IsSpace false fuel p = none ∧ SpaceRun p) ∨
      (∃ i q post, lastIndexFuncLoop unicode.IsSpace false fuel p = some i ∧ p = q ++ post ∧
        SpaceRun post ∧ q ≠ [] ∧ unicode.IsSpace (utf8.DecodeLastRune q).1 = false ∧
        i + (utf8.DecodeLastRune q).2 = q.length) := by
  intro fuel
  induction fuel with
  | zero =>
    intro p hp
    have : p = [] := List.length_eq_zero.1 (Nat.le_zero.1 hp)
    subst this
    exact Or.inl ⟨rfl, SpaceRun.nil⟩
  | succ fuel ih =>
    intro p hp
    by_cases hnil : p = []
    · subst hnil
      exact Or.inl ⟨rfl, SpaceRun.nil⟩
    · have hn : ¬ p.length = 0 := fun h0 => hnil (List.length_eq_zero.1 h0)
      obtain ⟨hw1, hw2, hshape⟩ := utf8.DecodeLastRune_shape p hnil
      simp only [lastIndexFuncLoop, hn, if_false, lastRune_eq p hnil]
      by_cases hsp : unicode.IsSpace (utf8.DecodeLastRune p).1 = false
      · right
        exact ⟨p.length - (utf8.DecodeLastRune p).2, p, [], by simp [hsp], by simp,
          SpaceRun.nil, hnil, hsp, by omega⟩
      · have hsp1 : unicode.IsSpace (utf8.DecodeLastRune p).1 = true := by simpa using hsp
        have hdec : utf8.DecodeRune (p.drop (p.length - (utf8.DecodeLastRune p).2)) =
            utf8.DecodeLastRune p := by
          rcases hshape with he | he
          · rw [he, utf8.IsSpace_RuneError] at hsp1; cases hsp1
          · exact he
        have hchunk : SpaceRun (p.drop (p.length - (utf8.DecodeLastRune p).2)) := by
          apply SpaceRun.single
          · rw [hdec, List.length_drop]; omega
          · rw [hdec]; exact hsp1
        have hsplit := List.take_append_drop (p.length - (utf8.DecodeLastRune p).2) p
        have hlen : (p.take (p.length - (utf8.DecodeLastRune p).2)).length ≤ fuel := by
          simp only [List.length_take]; omega
        rcases ih _ hlen with ⟨hnone, hrun⟩ | ⟨i, q, post, hsome, hq, hpost, hqne, hns, hi⟩
        · left
          refine ⟨by simp [hsp1, hnone], ?_⟩
          rw [← hsplit]
          exact hrun.append hchunk
        · right
          refine ⟨i, q, post ++ p.drop (p.length - (utf8.DecodeLastRune p).2),
            by simp [hsp1, hsome], ?_, hpost.append hchunk, hqne, hns, hi⟩
          rw [← List.append_assoc, ← hq, hsplit]

theorem indexFuncLoop_fuel (f : Nat → Bool) (truth : Bool) :
    ∀ (fuel1 fuel2 : Nat) (s : Msg), s.length ≤ fuel1 → s.length ≤ fuel2 →
      indexFuncLoop f truth fuel1 s = indexFuncLoop f truth fuel2 s := by
  intro fuel1
  induction fuel1 with
  | zero =>
    intro fuel2 s h1 _
    have : s = [] := List.length_eq_zero.1 (Nat.le_zero.1 h1)
    subst this
    cases fuel2 <;> rfl
  | succ fuel1 ih =>
    intro fuel2 s h1 h2
    cases s with
    | nil => cases fuel2 <;> rfl
    | cons c t =>
      obtain ⟨k, rfl⟩ : ∃ k, fuel2 = k + 1 := ⟨fuel2 - 1, by
        simp only [List.length_cons] at h2; omega⟩
      have hw := utf8.DecodeRune_width (c :: t) (by simp)
      simp only [indexFuncLoop, firstRune_eq]
      have hl : ((c :: t).drop (utf8.DecodeRune (c :: t)).2).length ≤ fuel1 ∧
          ((c :: t).drop (utf8.DecodeRune (c :: t)).2).length ≤ k := by
        simp only [List.length_drop, List.length_cons] at h1 h2 hw ⊢; omega
      rw [ih k _ hl.1 hl.2]

theorem lastIndexFuncLoop_fuel (f : Nat → Bool) (truth : Bool) :
    ∀ (fuel1 fuel2 : Nat) (p : Msg), p.length ≤ fuel1 → p.length ≤ fuel2 →
      lastIndexFuncLoop f truth fuel1 p = lastIndexFuncLoop f truth fuel2 p := by
  intro fuel1
  induction fuel1 with
  | zero =>
    intro fuel2 p h1 _
    have : p = [] := List.length_eq_zero.1 (Nat.le_zero.1 h1)
    subst this
    cases fuel2 <;> rfl
  | succ fuel1 ih =>
    intro fuel2 p h1 h2
    by_cases hnil : p = []
    · subst hnil
      cases fuel2 <;> rfl
    · have hn : ¬ p.length = 0 := fun h0 => hnil (List.length_eq_zero.1 h0)
      obtain ⟨k, rfl⟩ : ∃ k, fuel2 = k + 1 := ⟨fuel2 - 1, by omega⟩
      obtain ⟨hw1, hw2, _⟩ := utf8.DecodeLastRune_shape p hnil
      simp only [lastIndexFuncLoop, hn, if_false, lastRune_eq p hnil]
      have hl : (p.take (p.length - (utf8.DecodeLastRune p).2)).length ≤ fuel1 ∧
          (p.take (p.length - (utf8.DecodeLastRune p).2)).length ≤ k := by
        simp only [List.length_take]; omega
      rw [ih k _ hl.1 hl.2]

theorem TrimLeftFunc_spec (s : Msg) :
    ∃ pre, s = pre ++ TrimLeftFunc s unicode.IsSpace ∧ SpaceRun pre ∧
      beginsWithSpace (TrimLeftFunc s unicode.IsSpace) = false := by
  unfold TrimLeftFunc indexFunc
  rcases indexFuncLoop_spec s.length s (Nat.le_refl _) with ⟨hnone, hrun⟩ | ⟨i, hsome, _, hrun, hns⟩
  · rw [hnone]
    exact ⟨s, by simp, hrun, utf8.IsSpace_RuneError⟩
  · rw [hsome]
    exact ⟨s.take i, (List.take_append_drop i s).symm, hrun, hns⟩

theorem TrimRightFunc_spec (s : Msg) :
    ∃ post, s = TrimRightFunc s unicode.IsSpace ++ post ∧ SpaceRun post ∧
      endsWithSpace (TrimRightFunc s unicode.IsSpace) = false ∧
      TrimRightFunc s unicode.IsSpace = s.take (TrimRightFunc s unicode.IsSpace).length := by
  unfold TrimRightFunc lastIndexFunc
  rcases lastIndexFuncLoop_spec s.length s (Nat.le_refl _) with
    ⟨hnone, hrun⟩ | ⟨i, q, post, hsome, hq, hpost, hqne, hns, hi⟩
  · rw [hnone]
    exact ⟨s, by simp, hrun, utf8.IsSpace_RuneError, by simp⟩
  · rw [hsome]
    simp only
    obtain ⟨hw1, hw2, hshape⟩ := utf8.DecodeLastRune_shape q hqne
    have hiq : i = q.length - (utf8.DecodeLastRune q).2 := by omega
    have hilt : i < q.length := by omega
    have hget : s.getD i 0 = q.getD i 0 := by rw [hq]; exact List.getD_append q post 0 i hilt
    have hdrop : s.drop i = q.drop i ++ post := by
      rw [hq, List.drop_append_of_le_length (Nat.le_of_lt hilt)]
    have htake : s.take q.length = q := by rw [hq, List.take_left]
    have hres : (if utf8.RuneSelf ≤ s.getD i 0 then s.take (i + (utf8.DecodeRune (s.drop i)).2)
        else s.take (i + 1)) = q := by
      by_cases h1 : (utf8.DecodeLastRune q).2 = 1
      · have hi1 : i + 1 = q.length := by omega
        have hd1 : q.drop i = [q.getD i 0] := by
          have := utf8.drop_last q hqne
          have hi2 : q.length - 1 = i := by omega
          rwa [hi2] at this
        have hwid : (utf8.DecodeRune (s.drop i)).2 = 1 := by
          rw [hdrop, hd1]
          exact utf8.DecodeRune_width_one _ _ hpost.head
        rw [hwid, hi1, htake]
        simp
      · have h2 : 2 ≤ (utf8.DecodeLastRune q).2 := by omega
        have hdec : utf8.DecodeRune (q.drop i) = utf8.DecodeLastRune q := by
          rcases hshape with he | he
          · rw [he] at h1; exact absurd rfl h1
          · rw [hiq]; exact he
        have hwid : (utf8.DecodeRune (s.drop i)).2 = (utf8.DecodeLastRune q).2 := by
          rw [hdrop, utf8.DecodeRune_append _ _ (by rw [hdec]; exact h2), hdec]
        have hself : utf8.RuneSelf ≤ s.getD i 0 := by
          by_contra hlt
          have hlt1 : q.getD i 0 < 0x80 := by
            rw [← hget]; simpa [utf8.RuneSelf] using hlt
          have hcons : q.drop i = q.getD i 0 :: q.drop (i + 1) := by
            rw [List.getD_eq_getElem _ _ hilt]
            exact List.drop_eq_getElem_cons hilt
          rw [hcons, utf8.DecodeRune_ascii _ _ hlt1] at hdec
          rw [← hdec] at h2
          simp at h2
        have hi2 : i + (utf8.DecodeLastRune q).2 = q.length := hi
        rw [if_pos hself, hwid, hi2, htake]
    rw [hres]
    exact ⟨post, hq, hpost, hns, by rw [htake]⟩

theorem TrimFunc_spec (s : Msg) :
    ∃ pre post, s = pre ++ TrimFunc s unicode.IsSpace ++ post ∧ SpaceRun pre ∧ SpaceRun post ∧
      beginsWithSpace (TrimFunc s unicode.IsSpace) = false ∧
      endsWithSpace (TrimFunc s unicode.IsSpace) = false := by
  obtain ⟨pre, hpre, hrunpre, hb⟩ := TrimLeftFunc_spec s
  obtain ⟨post, hpost, hrunpost, he, htake⟩ := TrimRightFunc_spec (TrimLeftFunc s unicode.IsSpace)
  refine ⟨pre, post, ?_, hrunpre, hrunpost, ?_, he⟩
  · unfold TrimFunc
    rw [List.append_assoc, ← hpost]
    exact hpre
  · unfold TrimFunc
    by_cases hnil : TrimRightFunc (TrimLeftFunc s unicode.IsSpace) unicode.IsSpace = []
    · rw [hnil]; exact utf8.IsSpace_RuneError
    · have hpos : 0 < (TrimRightFunc (TrimLeftFunc s unicode.IsSpace) unicode.IsSpace).length :=
        List.length_pos.2 hnil
      unfold beginsWithSpace at hb ⊢
      rw [htake]
      rcases utf8.DecodeRune_take_or (TrimLeftFunc s unicode.IsSpace) _ hpos with h | h
      · rw [h]; exact hb
      · rw [h]; exact utf8.IsSpace_RuneError

theorem DecodeLastRune_snoc_ascii (t : Msg) (c : Nat) (h : ¬ utf8.RuneSelf ≤ c) :
    utf8.DecodeLastRune (t ++ [c]) = (c, 1) := by
  have hr : c < utf8.RuneSelf := Nat.lt_of_not_le h
  have hg : (t ++ [c]).getD ((t ++ [c]).length - 1) 0 = c := by
    rw [List.getD_append_right _ _ _ _ (by simp)]
    simp
  unfold utf8.DecodeLastRune
  simp only [hg, hr, if_true]
  simp

theorem trimSpaceStop_spec :
    ∀ r : Msg, beginsWithSpace r.reverse = false →
      ∃ pre post, r.reverse = pre ++ trimSpaceStop r ++ post ∧ SpaceRun pre ∧ SpaceRun post ∧
        beginsWithSpace (trimSpaceStop r) = false ∧ endsWithSpace (trimSpaceStop r) = false := by
  intro r
  induction r with
  | nil =>
    intro _
    exact ⟨[], [], rfl, SpaceRun.nil, SpaceRun.nil, utf8.IsSpace_RuneError,
      utf8.IsSpace_RuneError⟩
  | cons c t ih =>
    intro hb
    unfold trimSpaceStop
    by_cases hself : utf8.RuneSelf ≤ c
    · rw [if_pos hself]
      exact TrimFunc_spec _
    · rw [if_neg hself]
      by_cases hsp : asciiSpace c = true
      · rw [if_pos hsp]
        have hbt : beginsWithSpace t.reverse = false := by
          by_cases hnil : t = []
          · subst hnil; exact utf8.IsSpace_RuneError
          · have hpos : 0 < t.reverse.length := by
              rw [List.length_reverse]; exact List.length_pos.2 hnil
            have htk : (c :: t).reverse.take t.reverse.length = t.reverse := by
              rw [List.reverse_cons, List.take_left]
            unfold beginsWithSpace at hb ⊢
            rcases utf8.DecodeRune_take_or (c :: t).reverse t.reverse.length hpos with h | h
            · rw [htk] at h; rw [h]; exact hb
            · rw [htk] at h; rw [h]; exact utf8.IsSpace_RuneError
        obtain ⟨pre, post, heq, hpre, hpost, h1, h2⟩ := ih hbt
        refine ⟨pre, post ++ [c], ?_, hpre, hpost.append (SpaceRun.ascii c hself hsp), h1, h2⟩
        rw [List.reverse_cons, heq]
        simp only [List.append_assoc]
      · rw [if_neg hsp]
        refine ⟨[], [], by simp, SpaceRun.nil, SpaceRun.nil, hb, ?_⟩
        unfold endsWithSpace
        rw [List.reverse_cons, DecodeLastRune_snoc_ascii _ c hself,
          IsSpace_ascii c (by simpa [utf8.RuneSelf] using hself)]
        simpa using hsp

theorem TrimSpace_spec :
    ∀ s : Msg, ∃ pre post, s = pre ++ TrimSpace s ++ post ∧ SpaceRun pre ∧ SpaceRun post ∧
      beginsWithSpace (TrimSpace s) = false ∧ endsWithSpace (TrimSpace s) = false := by
  intro s
  induction s with
  | nil =>
    exact ⟨[], [], rfl, SpaceRun.nil, SpaceRun.nil, utf8.IsSpace_RuneError,
      utf8.IsSpace_RuneError⟩
  | cons c t ih =>
    unfold TrimSpace
    by_cases hself : utf8.RuneSelf ≤ c
    · rw [if_pos hself]
      exact TrimFunc_spec _
    · rw [if_neg hself]
      have hc : c < 0x80 := by simpa [utf8.RuneSelf] using hself
      by_cases hsp : asciiSpace c = true
      · rw [if_pos hsp]
        obtain ⟨pre, post, heq, hpre, hpost, h1, h2⟩ := ih
        refine ⟨[c] ++ pre, post, ?_, (SpaceRun.ascii c hself hsp).append hpre, hpost, h1, h2⟩
        simp only [List.append_assoc] at heq ⊢
        rw [← heq]
        rfl
      · rw [if_neg hsp]
        have hb : beginsWithSpace (c :: t).reverse.reverse = false := by
          rw [List.reverse_reverse]
          unfold beginsWithSpace
          rw [utf8.DecodeRune_ascii c t hc, IsSpace_ascii c hc]
          simpa using hsp
        have := trimSpaceStop_spec (c :: t).reverse hb
        rwa [List.reverse_reverse] at this

theorem Replace_eq_map (s : Msg) (old new : Nat) :
    Replace s old [new] = s.map (fun b => if b = old then new else b) := by
  induction s with
  | nil => rfl
  | cons b t ih =>
    unfold Replace
    rw [ih]
    by_cases h : b = old <;> simp [h]

end bytes

theorem mem_normalize (message : Msg) (b : Nat) (h : b ∈ normalize message) :
    b ∈ message.map (fun b => if b = 10 then 32 else b) := by
  obtain ⟨pre, post, heq, _⟩ := bytes.TrimSpace_spec (bytes.Replace message 10 space)
  have h1 : b ∈ bytes.TrimSpace (bytes.Replace message 10 space) := h
  rw [← bytes.Replace_eq_map message 10 32]
  show b ∈ bytes.Replace message 10 space
  rw [heq]
  simp only [List.mem_append]
  exact Or.inl (Or.inr h1)

/-- C6: the message `ReadPump` submits is `bytes.TrimSpace` of the payload
with every newline byte replaced by one space: the replaced payload is
`pre ++ message ++ post` with `pre` and `post` made of white space characters
only, the message contains no newline byte and neither begins nor ends with a
white space character; `"hello\nworld"` gives `"hello world"` and `"  hi  "`
gives `"hi"`. -/
theorem normalize_spec (payload : Msg) :
    normalize payload = bytes.TrimSpace (payload.map (fun b => if b = 10 then 32 else b)) ∧
    (∃ pre post, payload.map (fun b => if b = 10 then 32 else b) =
        pre ++ normalize payload ++ post ∧ SpaceRun pre ∧ SpaceRun post) ∧
    10 ∉ normalize payload ∧
    beginsWithSpace (normalize payload) = false ∧
    endsWithSpace (normalize payload) = false ∧
    normalize [104, 101, 108, 108, 111, 10, 119, 111, 114, 108, 100] =
      [104, 101, 108, 108, 111, 32, 119, 111, 114, 108, 100] ∧
    normalize [32, 32, 104, 105, 32, 32] = [104, 105] := by
  have hmap : bytes.Replace payload 10 space = payload.map (fun b => if b = 10 then 32 else b) :=
    bytes.Replace_eq_map payload 10 32
  obtain ⟨pre, post, heq, hpre, hpost, hb, he⟩ :=
    bytes.TrimSpace_spec (bytes.Replace payload 10 space)
  refine ⟨by rw [normalize, hmap], ⟨pre, post, by rw [← hmap]; exact heq, hpre, hpost⟩, ?_,
    hb, he, by decide, by decide⟩
  intro h
  have := mem_normalize payload 10 h
  simp only [List.mem_map] at this
  obtain ⟨b, _, hb10⟩ := this
  split_ifs at hb10 with h10
  · omega
  · exact h10 hb10

end Socki
